import Mathlib

/-!
The write-ahead log `my-wal`: entry integrity and segment naming.

A shallow embedding of `wal_util.go` and `pb_util.go` together with the
library routines they call (`hash/crc32`, `strconv`, `strings`,
`path/filepath`, `fmt` and the protobuf wire codec), followed by theorems
about them.

Go strings and byte slices are lists of bytes; unsigned machine integers are
natural numbers kept below their width, `int` is a 64-bit two's complement
integer represented by `Int`.
-/

namespace Wal

/-- One byte (`byte`, `uint8`). -/
abbrev Byte := Fin 256

/-- A Go `string` or `[]byte`: a finite sequence of bytes. -/
abbrev Bytes := List Byte

/-- A `uint32` value. -/
abbrev Uint32 := Fin 4294967296

/-- A `uint64` value. -/
abbrev Uint64 := Fin 18446744073709551616

/-- The bytes of a string literal (its UTF-8 encoding, as Go stores it). -/
def str (s : String) : Bytes :=
  (s.data.flatMap String.utf8EncodeChar).map (fun b => b.val)

/-! ## hash/crc32 -/

/-- Constant `crc32.IEEE`: the reversed IEEE polynomial. -/
def IEEE : Nat := 0xedb88320

/-- One round of the inner loop of `simplePopulateTable`:
`if crc&1 == 1 { crc = (crc >> 1) ^ poly } else { crc >>= 1 }`. -/
def populateStep (poly crc : Nat) : Nat :=
  if crc % 2 = 1 then (crc >>> 1) ^^^ poly else crc >>> 1

/-- Entry `t[i]` that `simplePopulateTable` stores: eight rounds from `uint32(i)`. -/
def simplePopulateTable (poly i : Nat) : Nat :=
  (populateStep poly)^[8] i

/-- Table `crc32.IEEETable`, as the map from index to entry. -/
def IEEETable (i : Nat) : Nat := simplePopulateTable IEEE i

/-- Loop body of `simpleUpdate`: `crc = tab[byte(crc)^v] ^ (crc >> 8)`. -/
def updateByte (tab : Nat → Nat) (crc : Nat) (v : Byte) : Nat :=
  tab ((crc % 256) ^^^ v.val) ^^^ (crc >>> 8)

/-- Function `simpleUpdate`: complement, fold the bytes, complement again
(`^crc` on a `uint32` is the exclusive or with `0xffffffff`). -/
def simpleUpdate (crc : Nat) (tab : Nat → Nat) (p : Bytes) : Nat :=
  (p.foldl (updateByte tab) (crc ^^^ 0xffffffff)) ^^^ 0xffffffff

/-- Function `crc32.ChecksumIEEE`: the update of CRC 0 over the IEEE table. -/
def ChecksumIEEE (data : Bytes) : Nat := simpleUpdate 0 IEEETable data

/-! ## types.WAL_Entry -/

/-- Modelled from the spec: the message `types.WAL_Entry`, whose generated Go
file is not among the sources. It has the payload bytes, the 64-bit sequence
number and the 32-bit checksum (`verifyCRC` compares `entry.CRC` with a
`uint32`), and the bytes of fields the decoder did not recognise, which the
protobuf runtime keeps in every message. -/
structure WAL_Entry where
  LogSequenceNumber : Uint64
  Data : Bytes
  CRC : Uint32
  unknownFields : Bytes
  deriving DecidableEq, Repr

/-- The zero value of `types.WAL_Entry` (`var entry types.WAL_Entry`). -/
def WAL_Entry.zero : WAL_Entry := ⟨0, [], 0, []⟩

/-- Conversion `byte(x)` of a `uint64`: the low-order eight bits. -/
def byteOfUint64 (x : Uint64) : Byte := ⟨x.val % 256, Nat.mod_lt _ (by decide)⟩

/-- Function `verifyCRC` of `wal_util.go`. -/
def verifyCRC (entry : WAL_Entry) : Bool :=
  let actualCRC := ChecksumIEEE (entry.Data ++ [byteOfUint64 entry.LogSequenceNumber])
  decide (entry.CRC.val = actualCRC)

/-! ## strings, path/filepath (Unix) -/

/-- Function `strings.HasPrefix`: `len(s) >= len(prefix) && s[:len(prefix)] == prefix`. -/
def HasPrefix (s pre : Bytes) : Bool :=
  decide (s.length ≥ pre.length ∧ s.take pre.length = pre)

/-- Function `strings.TrimPrefix`: `s` without the leading `prefix`, or `s` itself. -/
def TrimPrefix (s pre : Bytes) : Bytes :=
  if HasPrefix s pre then s.drop pre.length else s

/-- Constant `filepath.Separator` on Unix, the byte of `/`. -/
def Separator : Byte := 47

/-- Function `os.IsPathSeparator` on Unix. -/
def IsPathSeparator (c : Byte) : Bool := decide (c = Separator)

/-- Loop of `filepath.Split`, `for i >= 0 && !os.IsPathSeparator(path[i]) { i-- }`,
on `k = i + 1`; the result is the final `i + 1`. -/
def splitScan (path : Bytes) : Nat → Nat
  | 0 => 0
  | k + 1 => if !IsPathSeparator (path.getD k 0) then splitScan path k else k + 1

/-- Function `filepath.Split` (the volume name is empty on Unix):
`path[:i+1], path[i+1:]`. -/
def Split (path : Bytes) : Bytes × Bytes :=
  let i1 := splitScan path path.length
  (path.take i1, path.drop i1)

/-! ## strconv -/

/-- The two sentinel errors of `strconv`. -/
inductive ConvErr where
  | ErrSyntax
  | ErrRange
  deriving DecidableEq, Repr

/-- Type `strconv.NumError`. -/
structure NumError where
  Func : String
  Num : Bytes
  Err : ConvErr
  deriving DecidableEq, Repr

/-- Function `syntaxError` of `strconv`. -/
def syntaxError (fn : String) (s : Bytes) : NumError := ⟨fn, s, .ErrSyntax⟩

/-- Function `rangeError` of `strconv`. -/
def rangeError (fn : String) (s : Bytes) : NumError := ⟨fn, s, .ErrRange⟩

/-- Constant `strconv.IntSize` (a 64-bit platform). -/
def IntSize : Nat := 64

/-- Conversion of an integer to `int64`: two's complement wrap-around. -/
def toInt64 (z : Int) : Int := (z + 2 ^ 63) % 2 ^ 64 - 2 ^ 63

/-- Function `lower` of `strconv`: `c | ('x' - 'X')`. -/
def lower (c : Byte) : Nat := c.val ||| 32

/-- The digit switch in the loop of `ParseUint` (no underscores: the base is
not 0): the value `d` of the byte, or nothing in the `default` case. -/
def digitVal (c : Byte) : Option Nat :=
  if 48 ≤ c.val ∧ c.val ≤ 57 then some (c.val - 48)
  else if 97 ≤ lower c ∧ lower c ≤ 122 then some (lower c - 97 + 10)
  else none

/-- Loop of `strconv.ParseUint` for a base in 2..36 and 64-bit results;
`n` is the accumulator, a `uint64`. -/
def parseUintLoop (s0 : Bytes) (base cutoff maxVal : Nat) : Bytes → Nat → Nat × Option NumError
  | [], n => (n, none)
  | c :: rest, n =>
    match digitVal c with
    | none => (0, some (syntaxError "ParseUint" s0))
    | some d =>
      if d ≥ base then (0, some (syntaxError "ParseUint" s0))
      else if n ≥ cutoff then (maxVal, some (rangeError "ParseUint" s0))
      else
        let n0 := (n * base) % 2 ^ 64
        let n1 := (n0 + d) % 2 ^ 64
        if n1 < n0 ∨ n1 > maxVal then (maxVal, some (rangeError "ParseUint" s0))
        else parseUintLoop s0 base cutoff maxVal rest n1

/-- Function `strconv.ParseUint(s, 10, 0)`: base 10, `bitSize` 0 meaning `IntSize`. -/
def ParseUint10 (s : Bytes) : Nat × Option NumError :=
  if s = [] then (0, some (syntaxError "ParseUint" s))
  else
    let cutoff := (2 ^ 64 - 1) / 10 + 1
    let maxVal := 2 ^ IntSize - 1
    parseUintLoop s 10 cutoff maxVal s 0

/-- Function `strconv.ParseInt(s, 10, 0)`. -/
def ParseInt10 (s : Bytes) : Int × Option NumError :=
  if s = [] then (0, some (syntaxError "ParseInt" s))
  else
    let s0 := s
    let neg := decide (s.head? = some 45)
    let s1 := if s.head? = some 43 then s.tail else if s.head? = some 45 then s.tail else s
    let (un, err) := ParseUint10 s1
    match err with
    | some ⟨_, _, .ErrSyntax⟩ => (0, some ⟨"ParseInt", s0, .ErrSyntax⟩)
    | _ =>
      let cutoff := 2 ^ (IntSize - 1)
      if !neg ∧ un ≥ cutoff then (((cutoff - 1 : Nat) : Int), some (rangeError "ParseInt" s0))
      else if neg ∧ un > cutoff then (-(cutoff : Int), some (rangeError "ParseInt" s0))
      else
        let n := toInt64 un
        (if neg then toInt64 (-n) else n, none)

/-- Loop of the fast path of `strconv.Atoi`: `ch -= '0'` wraps around in a byte. -/
def atoiFastLoop (s0 : Bytes) : Bytes → Int → Int × Option NumError
  | [], n => (n, none)
  | ch :: rest, n =>
    let ch1 : Byte := ch - 48
    if ch1.val > 9 then (0, some (syntaxError "Atoi" s0))
    else atoiFastLoop s0 rest (n * 10 + ch1.val)

/-- Function `strconv.Atoi` with `intSize == 64`. -/
def Atoi (s : Bytes) : Int × Option NumError :=
  let sLen := s.length
  if 0 < sLen ∧ sLen < 19 then
    let s0 := s
    let signed := decide (s.head? = some 45 ∨ s.head? = some 43)
    let s1 := if signed then s.tail else s
    if signed ∧ s1.length < 1 then (0, some (syntaxError "Atoi" s0))
    else
      match atoiFastLoop s0 s1 0 with
      | (_, some e) => (0, some e)
      | (n, none) => (if s0.head? = some 45 then -n else n, none)
  else
    match ParseInt10 s with
    | (i64, some nerr) => (i64, some { nerr with Func := "Atoi" })
    | (i64, none) => (i64, none)

/-! ## wal_util.go: segment files -/

/-- Loop of `findLastSegmentIndexInFiles`; `lastSegmentID` is the running maximum. -/
def findLastLoop : List Bytes → Int → Int × Option NumError
  | [], lastSegmentID => (lastSegmentID, none)
  | file :: files, lastSegmentID =>
    let fileName := (Split file).2
    match Atoi (TrimPrefix fileName (str "segment-")) with
    | (_, some err) => (0, some err)
    | (segmentID, none) =>
      findLastLoop files (if segmentID > lastSegmentID then segmentID else lastSegmentID)

/-- Function `findLastSegmentIndexInFiles` of `wal_util.go`: the pair
`(id, err)` it returns. -/
def findLastSegmentIndexInFiles (files : List Bytes) : Int × Option NumError :=
  findLastLoop files 0

/-! ## fmt -/

/-- Digit loop of `fmt.fmtInteger` in base 10, writing right to left in front of
`acc`: `for u >= 10 { next := u / 10; buf[i] = '0' + u - next*10; u = next }`
and then the leading digit. The fuel bounds the number of digits. -/
def fmtLoop : Nat → Nat → Bytes → Bytes
  | 0, _, acc => acc
  | fuel + 1, u, acc =>
    if u ≥ 10 then
      let next := u / 10
      fmtLoop fuel next (Fin.ofNat (48 + u - next * 10) :: acc)
    else Fin.ofNat (48 + u) :: acc

/-- The decimal representation of a natural number, without padding. -/
def decimal (u : Nat) : Bytes := fmtLoop (u + 1) u []

/-- The text `fmt.Sprintf("%d", v)` produces for an `int`: a minus sign for a
negative value, then the digits of the magnitude. -/
def sprintD (v : Int) : Bytes :=
  if v < 0 then (45 : Byte) :: decimal (-v).toNat else decimal v.toNat

/-! ## Predicates used in the statements -/

/-- An ASCII decimal digit. -/
def isDigit (c : Byte) : Bool := decide (48 ≤ c.val ∧ c.val ≤ 57)

/-- One or more ASCII decimal digits. -/
def digitsOnly (s : Bytes) : Bool := decide (s ≠ []) && s.all isDigit

/-- An optional single sign `+` or `-` followed by one or more ASCII digits. -/
def signedDecimal (s : Bytes) : Bool :=
  match s with
  | [] => false
  | c :: rest => if c = 43 ∨ c = 45 then digitsOnly rest else digitsOnly (c :: rest)

/-- Value of a digit string read left to right from the accumulator `a`. -/
def horner (ds : Bytes) (a : Nat) : Nat :=
  ds.foldl (fun n c => n * 10 + (c.val - 48)) a

/-- Value of an optionally signed digit string. -/
def signedValue (s : Bytes) : Int :=
  match s with
  | [] => 0
  | c :: rest =>
    if c = 45 then -((horner rest 0 : Nat) : Int)
    else if c = 43 then ((horner rest 0 : Nat) : Int)
    else ((horner (c :: rest) 0 : Nat) : Int)

/-- The argument `ParseInt` hands to `ParseUint`: the string without its sign. -/
def unsignedPart (s : Bytes) : Bytes :=
  if s.head? = some 43 then s.tail else if s.head? = some 45 then s.tail else s

/-- Lines 38 and 39 of `wal_util.go`: the segment-id parse of one entry,
`strconv.Atoi(strings.TrimPrefix(fileName, "segment-"))` on the file name that
`filepath.Split` returns. -/
def parseSegmentID (file : Bytes) : Int × Option NumError :=
  Atoi (TrimPrefix (Split file).2 (str "segment-"))

/-- An optionally signed digit string whose value fits a 64-bit `int`. -/
def intLiteral (s : Bytes) : Prop :=
  signedDecimal s = true ∧ -(2 ^ 63 : Int) ≤ signedValue s ∧ signedValue s < 2 ^ 63

/-- The canonical file name of segment `n`: `segment-` and the decimal digits. -/
def segmentName (n : Nat) : Bytes := str "segment-" ++ decimal n

/-! ## Bit flips (for the sensitivity statements) -/

/-- The byte `b` with bit `k` inverted (bit 0 is the least significant). -/
def flipByteBit (b : Byte) (k : Nat) : Byte := Fin.ofNat (b.val ^^^ (1 <<< (k % 8)))

/-- The payload with its bit number `i` inverted: bit `i % 8` of byte `i / 8`. -/
def flipBit : Bytes → Nat → Bytes
  | [], _ => []
  | b :: rest, i => if i < 8 then flipByteBit b i :: rest else b :: flipBit rest (i - 8)

instance (s : Bytes) : Decidable (intLiteral s) := by
  unfold intLiteral
  infer_instance

/-! ## path/filepath: Clean and Join (Unix) -/

/-- The scan of the `..` case of `filepath.Clean` after its first `out.w--`:
`for out.w > dotdot && !os.IsPathSeparator(out.index(out.w)) { out.w-- }`,
started at `w` and returning the final `out.w`. -/
def backtrack (buf : Bytes) (dotdot : Nat) : Nat → Nat
  | 0 => 0
  | w + 1 =>
    if w + 1 > dotdot ∧ !IsPathSeparator (buf.getD (w + 1) 0) then backtrack buf dotdot w
    else w + 1

/-- Main loop `for r < n` of `filepath.Clean`. `rest` is `path[r:]`, `out` the
bytes written so far (`out.w` is its length). Every round consumes at least one
byte of `rest`; the fuel counts the rounds left, and `none` means that it ran out. -/
def cleanLoop (rooted : Bool) : Nat → Bytes → Bytes → Nat → Option Bytes
  | 0, _, _, _ => none
  | fuel + 1, rest, out, dotdot =>
    match rest with
    | [] => some out
    | c :: rest1 =>
      if IsPathSeparator c then
        -- empty path element
        cleanLoop rooted fuel rest1 out dotdot
      else if c = 46 ∧ (rest1 = [] ∨ IsPathSeparator (rest1.headD 0)) then
        -- . element
        cleanLoop rooted fuel rest1 out dotdot
      else if c = 46 ∧ rest1.head? = some 46 ∧
          (rest1.tail = [] ∨ IsPathSeparator (rest1.tail.headD 0)) then
        -- .. element: remove to last separator
        if out.length > dotdot then
          cleanLoop rooted fuel rest1.tail
            (out.take (backtrack out dotdot (out.length - 1))) dotdot
        else if !rooted then
          let out1 := if out.length > 0 then out ++ [Separator] else out
          let out2 := out1 ++ [46, 46]
          cleanLoop rooted fuel rest1.tail out2 out2.length
        else cleanLoop rooted fuel rest1.tail out dotdot
      else
        -- real path element: add slash if needed, copy element
        let out1 :=
          if (rooted ∧ out.length ≠ 1) ∨ (!rooted ∧ out.length ≠ 0) then out ++ [Separator]
          else out
        cleanLoop rooted fuel ((c :: rest1).dropWhile (fun b => !IsPathSeparator b))
          (out1 ++ (c :: rest1).takeWhile (fun b => !IsPathSeparator b)) dotdot

/-- Function `filepath.Clean` on Unix (no volume name, `FromSlash` is the
identity); `none` only if the loop ran out of fuel. -/
def Clean (path : Bytes) : Option Bytes :=
  if path = [] then some (path ++ [46])
  else
    let rooted := IsPathSeparator (path.headD 0)
    let n := path.length
    let start : Bytes × Bytes × Nat := if rooted then ([Separator], path.drop 1, 1) else ([], path, 0)
    match cleanLoop rooted (n + 1) start.2.1 start.1 start.2.2 with
    | none => none
    | some out => some (if out.length = 0 then [46] else out)

/-- Function `strings.Join`. -/
def stringsJoin : List Bytes → Bytes → Bytes
  | [], _ => []
  | [e], _ => e
  | e :: e1 :: es, sep => e ++ sep ++ stringsJoin (e1 :: es) sep

/-- Function `filepath.Join` on Unix: clean the join of the elements from the
first non-empty one on; the empty string if there is none. -/
def Join : List Bytes → Option Bytes
  | [] => some []
  | e :: es => if e ≠ [] then Clean (stringsJoin (e :: es) [Separator]) else Join es

/-! ## wal_util.go: createSegmentFile -/

/-- The text of `fmt.Sprintf("segment-%d", segmentID)`. -/
def sprintfSegment (segmentID : Int) : Bytes := str "segment-" ++ sprintD segmentID

/-- Variable `filePath` of `createSegmentFile`:
`filepath.Join(directory, fmt.Sprintf("segment-%d", segmentID))`, the path the
function hands to `os.Create`. -/
def createSegmentFilePath (directory : Bytes) (segmentID : Int) : Option Bytes :=
  Join [directory, sprintfSegment segmentID]

/-! ## Predicates of the proofs about `filepath.Clean` -/

/-- The list is empty or ends with a separator. -/
def SepEnd (p : Bytes) : Prop := p = [] ∨ ∃ q, p = q ++ [Separator]

/-- Invariant of the loop for a rooted path: the output keeps its leading
separator and `dotdot` stays 1. -/
def RootInv (rooted : Bool) (out : Bytes) (dotdot : Nat) : Prop :=
  rooted = true → dotdot = 1 ∧ out.head? = some Separator

/-! ## google.golang.org/protobuf: the wire format (`protowire`) -/

/-- Function `protowire.AppendVarint`, byte by byte: every byte but the last is
`(v>>7j)&0x7f|0x80`, the last is `byte(v>>7j)`; `k` bounds the bytes still to
write (ten for a `uint64`). -/
def appendVarintFrom : Nat → Nat → Bytes
  | 0, _ => []
  | k + 1, v =>
    if v < 0x80 then [Fin.ofNat v]
    else Fin.ofNat ((v &&& 0x7f) ||| 0x80) :: appendVarintFrom k (v >>> 7)

/-- Function `protowire.AppendVarint` (the bytes it appends). -/
def AppendVarint (v : Nat) : Bytes := appendVarintFrom 10 v

/-- Function `protowire.ConsumeVarint` from byte index `i` on: the value the
bytes from `i` contribute and the length `n` of the varint; `none` stands for a
negative `n` (truncated input, or a tenth byte above 1). -/
def consumeVarintFrom : Nat → Bytes → Option (Nat × Nat)
  | _, [] => none
  | i, y :: rest =>
    if i < 9 then
      if y.val < 0x80 then some (y.val <<< (7 * i), i + 1)
      else
        match consumeVarintFrom (i + 1) rest with
        | none => none
        | some (v, n) => some (((y.val - 0x80) <<< (7 * i)) + v, n)
    else if y.val < 2 then some (y.val <<< 63, 10)
    else none

/-- Function `protowire.ConsumeVarint`: value and length, `none` for `n < 0`. -/
def ConsumeVarint (b : Bytes) : Option (Nat × Nat) := consumeVarintFrom 0 b

/-- The varint read with the one- and two-byte shortcuts that the message
decoder and the scalar field decoders take before calling `ConsumeVarint`. -/
def consumeVarintFast (b : Bytes) : Option (Nat × Nat) :=
  match b with
  | b0 :: b1 :: _ =>
    if b0.val < 0x80 then some (b0.val, 1)
    else if b1.val < 128 then some ((b0.val &&& 0x7f) + (b1.val <<< 7), 2)
    else ConsumeVarint b
  | [b0] => if b0.val < 0x80 then some (b0.val, 1) else ConsumeVarint b
  | [] => ConsumeVarint b

/-- Function `protowire.ConsumeBytes`: the length-prefixed bytes and the total
length consumed; `none` for `n < 0`. -/
def ConsumeBytes (b : Bytes) : Option (Bytes × Nat) :=
  match ConsumeVarint b with
  | none => none
  | some (m, n) =>
    if m > (b.drop n).length then none else some ((b.drop n).take m, n + m)

/-- Wire types of `protowire`. -/
def VarintType : Nat := 0
/-- Wire type of eight fixed bytes. -/
def Fixed64Type : Nat := 1
/-- Wire type of length-prefixed bytes. -/
def BytesType : Nat := 2
/-- Wire type that opens a group. -/
def StartGroupType : Nat := 3
/-- Wire type that closes a group. -/
def EndGroupType : Nat := 4
/-- Wire type of four fixed bytes. -/
def Fixed32Type : Nat := 5

/-- Constant `protowire.MinValidNumber`. -/
def MinValidNumber : Nat := 1
/-- Constant `protowire.MaxValidNumber`, `1<<29 - 1`. -/
def MaxValidNumber : Nat := 536870911
/-- Constant `protowire.DefaultRecursionLimit`. -/
def DefaultRecursionLimit : Nat := 10000

/-- Function `protowire.EncodeTag`: `uint64(num)<<3 | uint64(typ&7)`. -/
def EncodeTag (num typ : Nat) : Nat := (num <<< 3) ||| (typ &&& 7)

/-- Function `protowire.ConsumeTag`: field number, wire type and length; `none`
for `n < 0` (bad varint, or a field number below 1 or above `math.MaxInt32`). -/
def ConsumeTag (b : Bytes) : Option (Nat × Nat × Nat) :=
  match ConsumeVarint b with
  | none => none
  | some (v, n) =>
    if v >>> 3 > 2147483647 then none
    else if v >>> 3 < MinValidNumber then none
    else some (v >>> 3, v &&& 7, n)

/-- Length result of skipping a field value: a length, a negative `n`
(malformed), or an exhausted fuel of the model. -/
inductive Skip where
  | len (n : Nat)
  | invalid
  | outOfFuel
  deriving DecidableEq, Repr

/-- Loop of the `StartGroupType` case of `consumeFieldValueD`: read tags and
skip values until the end-group tag of `num`; `sub` skips one nested value,
`used` is `n0 - len(b)`. Every round consumes at least the tag byte. -/
def groupLoop (sub : Nat → Nat → Bytes → Skip) (num : Nat) : Nat → Bytes → Nat → Skip
  | 0, _, _ => .outOfFuel
  | fuel + 1, b, used =>
    match ConsumeTag b with
    | none => .invalid
    | some (num2, typ2, n) =>
      if typ2 = EndGroupType then
        if num ≠ num2 then .invalid else .len (used + n)
      else
        match sub num2 typ2 (b.drop n) with
        | .len m => groupLoop sub num fuel ((b.drop n).drop m) (used + n + m)
        | .invalid => .invalid
        | .outOfFuel => .outOfFuel

/-- The cases of `consumeFieldValueD` other than `StartGroupType`: varint, fixed
32 and 64 bits, length-prefixed bytes; an end-group or reserved type is an error. -/
def consumeFlatValue (typ : Nat) (b : Bytes) : Skip :=
  if typ = VarintType then
    match ConsumeVarint b with
    | none => .invalid
    | some (_, n) => .len n
  else if typ = Fixed32Type then
    if b.length < 4 then .invalid else .len 4
  else if typ = Fixed64Type then
    if b.length < 8 then .invalid else .len 8
  else if typ = BytesType then
    match ConsumeBytes b with
    | none => .invalid
    | some (_, n) => .len n
  else .invalid

/-- Function `consumeFieldValueD` of `protowire`; the first argument is
`depth + 1`, so 0 stands for a negative depth, at which a group is an error. -/
def consumeFieldValueD : Nat → Nat → Nat → Bytes → Skip
  | 0, _, typ, b => if typ = StartGroupType then .invalid else consumeFlatValue typ b
  | d1 + 1, num, typ, b =>
    if typ = StartGroupType then groupLoop (consumeFieldValueD d1) num (b.length + 1) b 0
    else consumeFlatValue typ b

/-- Function `protowire.ConsumeFieldValue`. -/
def ConsumeFieldValue (num typ : Nat) (b : Bytes) : Skip :=
  consumeFieldValueD (DefaultRecursionLimit + 1) num typ b

/-! ## google.golang.org/protobuf: the codec of `types.WAL_Entry` -/

/-- Modelled from the spec: the field numbers of the generated message
`types.WAL_Entry`, whose schema is not among the sources. The three fields are
the 64-bit sequence number (`uint64`), the payload (`bytes`) and the 32-bit
checksum (`uint32`); their numbers are parameters. -/
structure Schema where
  lsn : Nat
  data : Nat
  crc : Nat
  deriving DecidableEq, Repr

/-- A schema protoc accepts: field numbers in range and pairwise different. -/
def Schema.valid (s : Schema) : Prop :=
  (1 ≤ s.lsn ∧ s.lsn ≤ MaxValidNumber) ∧ (1 ≤ s.data ∧ s.data ≤ MaxValidNumber) ∧
    (1 ≤ s.crc ∧ s.crc ≤ MaxValidNumber) ∧ s.lsn ≠ s.data ∧ s.lsn ≠ s.crc ∧ s.data ≠ s.crc

instance (s : Schema) : Decidable s.valid := by
  unfold Schema.valid
  infer_instance

/-- Field coder `appendUint64NoZero` (also `appendUint32NoZero`, which widens
its value first): nothing for the zero value, else tag and varint. -/
def appendUintNoZero (num v : Nat) : Bytes :=
  if v = 0 then [] else AppendVarint (EncodeTag num VarintType) ++ AppendVarint v

/-- Field coder `appendBytesNoZero`: nothing for an empty slice, else tag,
length and bytes (`protowire.AppendBytes`). -/
def appendBytesNoZero (num : Nat) (v : Bytes) : Bytes :=
  if v.length = 0 then []
  else AppendVarint (EncodeTag num BytesType) ++ (AppendVarint v.length ++ v)

/-- Function `proto.Marshal` on a `WAL_Entry`: the set fields in the order of
their numbers, then the unknown fields. It has no error case for this message
(no required field, no string, no nested message). -/
def protoMarshal (sch : Schema) (entry : WAL_Entry) : Bytes :=
  let fields : List (Nat × Bytes) :=
    [(sch.lsn, appendUintNoZero sch.lsn entry.LogSequenceNumber.val),
     (sch.data, appendBytesNoZero sch.data entry.Data),
     (sch.crc, appendUintNoZero sch.crc entry.CRC.val)]
  ((fields.insertionSort (fun x y => x.1 ≤ y.1)).map Prod.snd).flatten ++ entry.unknownFields

/-- Result of a field decoder: the updated message and the length consumed,
`errUnknown` (wrong wire type) or `errDecode`. -/
inductive FieldOut where
  | ok (entry : WAL_Entry) (n : Nat)
  | errUnknown
  | errDecode
  deriving DecidableEq, Repr

/-- Field decoder `consumeUint64` for the sequence number. -/
def consumeUint64 (b : Bytes) (entry : WAL_Entry) (wtyp : Nat) : FieldOut :=
  if wtyp ≠ VarintType then .errUnknown
  else
    match consumeVarintFast b with
    | none => .errDecode
    | some (v, n) => .ok { entry with LogSequenceNumber := Fin.ofNat v } n

/-- Field decoder `consumeUint32` for the checksum: the value is `uint32(v)`. -/
def consumeUint32 (b : Bytes) (entry : WAL_Entry) (wtyp : Nat) : FieldOut :=
  if wtyp ≠ VarintType then .errUnknown
  else
    match consumeVarintFast b with
    | none => .errDecode
    | some (v, n) => .ok { entry with CRC := Fin.ofNat v } n

/-- Field decoder `consumeBytesNoZero` for the payload. -/
def consumeBytesNoZero (b : Bytes) (entry : WAL_Entry) (wtyp : Nat) : FieldOut :=
  if wtyp ≠ BytesType then .errUnknown
  else
    match ConsumeBytes b with
    | none => .errDecode
    | some (v, n) => .ok { entry with Data := v } n

/-- Result of decoding a message: the message, the decode error, or an
exhausted fuel of the model. -/
inductive Decoded where
  | msg (entry : WAL_Entry)
  | errDecode
  | outOfFuel
  deriving DecidableEq, Repr

/-- Loop `for len(b) > 0` of the message decoder (`unmarshalPointer`, with no
enclosing group): read a tag, decode a known field or skip and keep an unknown
one. Every round consumes at least the tag byte. -/
def unmarshalLoop (sch : Schema) : Nat → Bytes → WAL_Entry → Decoded
  | 0, _, _ => .outOfFuel
  | fuel + 1, b, entry =>
    if b.length = 0 then .msg entry
    else
      match consumeVarintFast b with
      | none => .errDecode
      | some (tag, n0) =>
        let b1 := b.drop n0
        let num := tag >>> 3
        if num < MinValidNumber ∨ num > MaxValidNumber then .errDecode
        else
          let wtyp := tag &&& 7
          if wtyp = EndGroupType then .errDecode
          else
            let out :=
              if num = sch.lsn then consumeUint64 b1 entry wtyp
              else if num = sch.data then consumeBytesNoZero b1 entry wtyp
              else if num = sch.crc then consumeUint32 b1 entry wtyp
              else .errUnknown
            match out with
            | .ok entry1 n => unmarshalLoop sch fuel (b1.drop n) entry1
            | .errDecode => .errDecode
            | .errUnknown =>
              match ConsumeFieldValue num wtyp b1 with
              | .invalid => .errDecode
              | .outOfFuel => .outOfFuel
              | .len n =>
                unmarshalLoop sch fuel (b1.drop n)
                  { entry with
                    unknownFields :=
                      entry.unknownFields ++ (AppendVarint (EncodeTag num wtyp) ++ b1.take n) }

/-- Function `proto.Unmarshal` into a `WAL_Entry`: reset the message, then decode. -/
def protoUnmarshal (sch : Schema) (b : Bytes) : Decoded :=
  unmarshalLoop sch (b.length + 1) b WAL_Entry.zero

/-! ## pb_util.go and wal_util.go: entries -/

/-- How a call ends: it returns, it panics, or the fuel of the model ran out. -/
inductive Outcome (α : Type) where
  | ret (a : α)
  | panic
  | outOfFuel
  deriving DecidableEq, Repr

/-- Function `MustMarshal` of `pb_util.go`; `proto.Marshal` never fails here, so
the panic branch is dead. -/
def MustMarshal (sch : Schema) (entry : WAL_Entry) : Bytes := protoMarshal sch entry

/-- Function `MustUnmarshal` of `pb_util.go`: the decoded entry, or a panic on a
decode error. -/
def MustUnmarshal (sch : Schema) (data : Bytes) : Outcome WAL_Entry :=
  match protoUnmarshal sch data with
  | .msg entry => .ret entry
  | .errDecode => .panic
  | .outOfFuel => .outOfFuel

/-- An `error` value made by `fmt.Errorf`: its message. -/
structure GoError where
  msg : String
  deriving DecidableEq, Repr

/-- The error `fmt.Errorf("CRC mismatch: data may be corrupted")`. -/
def crcMismatch : GoError := ⟨"CRC mismatch: data may be corrupted"⟩

/-- Function `unmarshalAndVerifyEntry` of `wal_util.go`: the pair
`(*WAL_Entry, error)` it returns, unless `MustUnmarshal` panics. -/
def unmarshalAndVerifyEntry (sch : Schema) (data : Bytes) :
    Outcome (Option WAL_Entry × Option GoError) :=
  match MustUnmarshal sch data with
  | .ret entry =>
    if !verifyCRC entry then .ret (none, some crcMismatch)
    else .ret (some entry, none)
  | .panic => .panic
  | .outOfFuel => .outOfFuel

/-- The decoder, started on `b` with the message `entry` built so far, ends with
the message `r` for some amount of fuel. -/
def Decodes (sch : Schema) (b : Bytes) (entry r : WAL_Entry) : Prop :=
  ∃ fuel, unmarshalLoop sch fuel b entry = .msg r

/-! ## CRC-32 as the specification describes it -/

/-- The textbook bit-at-a-time CRC-32 with the IEEE polynomial (reflected form
`0xEDB88320`): start from `0xFFFFFFFF`; for each byte, exclusive-or it into the
low bits and do eight shift steps, each followed by an exclusive or with the
polynomial when the bit shifted out was set; complement at the end. -/
def crc32Reference (data : Bytes) : Nat :=
  (data.foldl (fun crc v => (populateStep 0xEDB88320)^[8] (crc ^^^ v.val)) 0xFFFFFFFF) ^^^
    0xFFFFFFFF

/-! ## wal_util.go: createSegmentFile, and the records of the writer -/

/-- Function `createSegmentFile` of `wal_util.go`, with `os.Create` as a
parameter (it maps the path to the pair `(file, err)`): the pair
`(*os.File, error)` the function returns, `none` only if the path computation
ran out of fuel. -/
def createSegmentFile {File Err : Type} (osCreate : Bytes → Option File × Option Err)
    (directory : Bytes) (segmentID : Int) : Option (Option File × Option Err) :=
  match createSegmentFilePath directory segmentID with
  | none => none
  | some filePath =>
    match osCreate filePath with
    | (_, some err) => some (none, some err)
    | (file, none) => some (file, none)

/-- The record of a sequence number and a payload whose checksum field is
computed as section 4.2 of the specification prescribes: the CRC-32 (IEEE) of
the payload followed by the low byte of the sequence number. -/
def sealedEntry (sequenceNumber : Uint64) (payload : Bytes) : WAL_Entry :=
  ⟨sequenceNumber, payload,
    Fin.ofNat (ChecksumIEEE (payload ++ [byteOfUint64 sequenceNumber])), []⟩

/-! # Theorems -/

/-! ## Decimal digits -/

theorem isDigit_iff (c : Byte) : isDigit c = true ↔ 48 ≤ c.val ∧ c.val ≤ 57 := by
  simp [isDigit]

theorem isDigit_ofNat (d : Nat) (h : d < 10) : isDigit (Fin.ofNat (48 + d)) = true := by
  rw [isDigit_iff]
  simp only [Fin.ofNat, Fin.val_mk]
  omega

theorem ofNat_digit_val (d : Nat) (h : d < 10) : (Fin.ofNat (48 + d) : Byte).val - 48 = d := by
  simp only [Fin.ofNat, Fin.val_mk]
  omega

theorem horner_append (xs ys : Bytes) (a : Nat) :
    horner (xs ++ ys) a = horner ys (horner xs a) := by
  simp [horner, List.foldl_append]

theorem horner_ge (ds : Bytes) (a : Nat) : a ≤ horner ds a := by
  induction ds generalizing a with
  | nil => simp [horner]
  | cons c rest ih =>
    have := ih (a * 10 + (c.val - 48))
    simp only [horner, List.foldl_cons] at this ⊢
    omega

/-- What `fmtLoop` writes in front of `acc`: a non-empty digit string whose
value is `u` and which starts with `0` only when `u = 0`. -/
theorem fmtLoop_spec (fuel u : Nat) (acc : Bytes) (h : u < fuel) :
    ∃ ds : Bytes, fmtLoop fuel u acc = ds ++ acc ∧ ds ≠ [] ∧ ds.all isDigit = true ∧
      horner ds 0 = u ∧ 10 ^ (ds.length - 1) ≤ max u 1 ∧ u < 10 ^ ds.length := by
  induction fuel generalizing u acc with
  | zero => omega
  | succ fuel ih =>
    unfold fmtLoop
    by_cases hu : u ≥ 10
    · simp only [hu, if_true]
      obtain ⟨ds, hds, hne, hall, hval, hlo, hhi⟩ :=
        ih (u / 10) (Fin.ofNat (48 + u - u / 10 * 10) :: acc) (by omega)
      refine ⟨ds ++ [Fin.ofNat (48 + u - u / 10 * 10)], ?_, by simp, ?_, ?_, ?_, ?_⟩
      · simp [hds]
      · have e : 48 + u - u / 10 * 10 = 48 + u % 10 := by omega
        simp only [List.all_append, hall, List.all_cons, List.all_nil, Bool.and_true, Bool.true_and]
        rw [e]
        exact isDigit_ofNat _ (Nat.mod_lt _ (by decide))
      · have e : 48 + u - u / 10 * 10 = 48 + u % 10 := by omega
        rw [horner_append, hval, e]
        simp only [horner, List.foldl_cons, List.foldl_nil]
        rw [ofNat_digit_val _ (Nat.mod_lt _ (by decide))]
        omega
      · have hl : ds.length ≠ 0 := by
          intro h0; exact hne (List.length_eq_zero.mp h0)
        have : (ds ++ [Fin.ofNat (48 + u - u / 10 * 10)]).length - 1 = (ds.length - 1) + 1 := by
          simp; omega
        rw [this, pow_succ]
        have h1 : max (u / 10) 1 = u / 10 := by
          apply max_eq_left; omega
        rw [h1] at hlo
        have : max u 1 = u := by apply max_eq_left; omega
        rw [this]
        omega
      · simp only [List.length_append, List.length_singleton, pow_succ]
        omega
    · simp only [hu, if_false]
      refine ⟨[Fin.ofNat (48 + u)], by simp, by simp, ?_, ?_, ?_, ?_⟩
      · simp only [List.all_cons, List.all_nil, Bool.and_true]
        exact isDigit_ofNat _ (by omega)
      · simp only [horner, List.foldl_cons, List.foldl_nil]
        rw [ofNat_digit_val _ (by omega)]; omega
      · simp
      · simp; omega

theorem decimal_spec (u : Nat) :
    decimal u ≠ [] ∧ (decimal u).all isDigit = true ∧ horner (decimal u) 0 = u ∧
      10 ^ ((decimal u).length - 1) ≤ max u 1 ∧ u < 10 ^ (decimal u).length := by
  obtain ⟨ds, hds, h⟩ := fmtLoop_spec (u + 1) u [] (by omega)
  simp only [List.append_nil] at hds
  unfold decimal
  rw [hds]
  exact h

/-! ## strconv: the digit loops -/

theorem digitVal_of_isDigit (c : Byte) (h : isDigit c = true) :
    digitVal c = some (c.val - 48) := by
  rw [isDigit_iff] at h
  simp [digitVal, h]

theorem digitVal_lt_ten (c : Byte) (d : Nat) (h : digitVal c = some d) (hd : d < 10) :
    isDigit c = true := by
  unfold digitVal at h
  by_cases h1 : 48 ≤ c.val ∧ c.val ≤ 57
  · rw [isDigit_iff]; exact h1
  · rw [if_neg h1] at h
    by_cases h2 : 97 ≤ lower c ∧ lower c ≤ 122
    · rw [if_pos h2] at h
      injection h with h
      omega
    · rw [if_neg h2] at h
      cases h

theorem horner_cons (c : Byte) (rest : Bytes) (a : Nat) :
    horner (c :: rest) a = horner rest (a * 10 + (c.val - 48)) := rfl

theorem horner_lt_pow (ds : Bytes) (a : Nat) (h : ds.all isDigit = true) :
    horner ds a < (a + 1) * 10 ^ ds.length := by
  induction ds generalizing a with
  | nil => simp [horner]
  | cons c rest ih =>
    simp only [List.all_cons, Bool.and_eq_true] at h
    have hc := (isDigit_iff c).mp h.1
    have := ih (a * 10 + (c.val - 48)) h.2
    rw [horner_cons, List.length_cons, pow_succ]
    calc horner rest (a * 10 + (c.val - 48))
        < (a * 10 + (c.val - 48) + 1) * 10 ^ rest.length := this
      _ ≤ ((a + 1) * 10) * 10 ^ rest.length := by
          apply Nat.mul_le_mul_right; omega
      _ = (a + 1) * (10 ^ rest.length * 10) := by ring

theorem atoiFastLoop_digits (s0 ds : Bytes) (n : Nat) (h : ds.all isDigit = true) :
    atoiFastLoop s0 ds (n : Int) = (((horner ds n : Nat) : Int), none) := by
  induction ds generalizing n with
  | nil => simp [atoiFastLoop, horner]
  | cons c rest ih =>
    simp only [List.all_cons, Bool.and_eq_true] at h
    have hc := (isDigit_iff c).mp h.1
    have hv : (c - 48 : Byte).val = c.val - 48 := by
      rw [Fin.sub_def]; simp only [Fin.val_mk]
      have : (48 : Byte).val = 48 := rfl
      omega
    unfold atoiFastLoop
    simp only [hv]
    rw [if_neg (by omega)]
    have := ih (n * 10 + (c.val - 48)) h.2
    rw [horner_cons, ← this]
    push_cast
    rfl

theorem atoiFastLoop_ok (s0 ds : Bytes) (n v : Int) (h : atoiFastLoop s0 ds n = (v, none)) :
    ds.all isDigit = true := by
  induction ds generalizing n with
  | nil => rfl
  | cons c rest ih =>
    unfold atoiFastLoop at h
    simp only at h
    by_cases hc : (c - 48 : Byte).val > 9
    · rw [if_pos hc] at h; cases h
    · rw [if_neg hc] at h
      have hd : isDigit c = true := by
        rw [isDigit_iff]
        rw [Fin.sub_def] at hc
        simp only [Fin.val_mk] at hc
        have : (48 : Byte).val = 48 := rfl
        omega
      simp only [List.all_cons, hd, Bool.true_and]
      exact ih _ h

theorem atoiFastLoop_err (s0 ds : Bytes) (n : Int) :
    (atoiFastLoop s0 ds n).2 = none ∨ (atoiFastLoop s0 ds n).2 = some (syntaxError "Atoi" s0) := by
  induction ds generalizing n with
  | nil => left; rfl
  | cons c rest ih =>
    unfold atoiFastLoop
    simp only
    split
    · right; rfl
    · exact ih _

/-- The cutoff and largest value `ParseUint` uses for base 10 and 64 bits. -/
theorem parseUintLoop_digits (s0 ds : Bytes) (n : Nat) (h : ds.all isDigit = true)
    (hv : horner ds n < 2 ^ 64) :
    parseUintLoop s0 10 ((2 ^ 64 - 1) / 10 + 1) (2 ^ 64 - 1) ds n = (horner ds n, none) := by
  induction ds generalizing n with
  | nil => simp [parseUintLoop, horner]
  | cons c rest ih =>
    simp only [List.all_cons, Bool.and_eq_true] at h
    have hc := (isDigit_iff c).mp h.1
    rw [horner_cons] at hv ⊢
    have hge := horner_ge rest (n * 10 + (c.val - 48))
    unfold parseUintLoop
    rw [digitVal_of_isDigit c h.1]
    simp only
    rw [if_neg (by omega), if_neg (by omega)]
    have e0 : n * 10 % 2 ^ 64 = n * 10 := Nat.mod_eq_of_lt (by omega)
    have e1 : (n * 10 + (c.val - 48)) % 2 ^ 64 = n * 10 + (c.val - 48) :=
      Nat.mod_eq_of_lt (by omega)
    rw [e0, e1, if_neg (by omega)]
    exact ih _ h.2 hv

theorem parseUintLoop_ok (s0 ds : Bytes) (n v : Nat) (hn : n < 2 ^ 64)
    (h : parseUintLoop s0 10 ((2 ^ 64 - 1) / 10 + 1) (2 ^ 64 - 1) ds n = (v, none)) :
    ds.all isDigit = true ∧ v = horner ds n ∧ v < 2 ^ 64 := by
  induction ds generalizing n with
  | nil =>
    simp only [parseUintLoop, Prod.mk.injEq, and_true] at h
    subst h
    exact ⟨rfl, rfl, hn⟩
  | cons c rest ih =>
    unfold parseUintLoop at h
    cases hd : digitVal c with
    | none => rw [hd] at h; cases h
    | some d =>
      rw [hd] at h
      simp only at h
      by_cases h1 : d ≥ 10
      · rw [if_pos h1] at h; cases h
      · rw [if_neg h1] at h
        by_cases h2 : n ≥ (2 ^ 64 - 1) / 10 + 1
        · rw [if_pos h2] at h; cases h
        · rw [if_neg h2] at h
          have e0 : n * 10 % 2 ^ 64 = n * 10 := Nat.mod_eq_of_lt (by omega)
          rw [e0] at h
          by_cases h3 : (n * 10 + d) % 2 ^ 64 < n * 10 ∨ (n * 10 + d) % 2 ^ 64 > 2 ^ 64 - 1
          · rw [if_pos h3] at h; cases h
          · rw [if_neg h3] at h
            have hdig := digitVal_lt_ten c d hd (by omega)
            have hdv := digitVal_of_isDigit c hdig
            rw [hd] at hdv
            injection hdv with hdv
            have hlt : n * 10 + d < 2 ^ 64 := by
              by_contra hcon
              have : (n * 10 + d) % 2 ^ 64 = n * 10 + d - 2 ^ 64 := by
                rw [Nat.mod_eq_sub_mod (by omega)]
                exact Nat.mod_eq_of_lt (by omega)
              omega
            rw [Nat.mod_eq_of_lt hlt] at h
            obtain ⟨ha, hb, hc⟩ := ih (n * 10 + d) hlt h
            refine ⟨?_, ?_, hc⟩
            · simp [hdig, ha]
            · rw [horner_cons, ← hdv]; exact hb

theorem parseUintLoop_err (s0 ds : Bytes) (n v : Nat) (e : NumError)
    (h : parseUintLoop s0 10 ((2 ^ 64 - 1) / 10 + 1) (2 ^ 64 - 1) ds n = (v, some e)) :
    e.Err = .ErrSyntax ∨ (e.Err = .ErrRange ∧ v = 2 ^ 64 - 1) := by
  induction ds generalizing n with
  | nil => simp [parseUintLoop] at h
  | cons c rest ih =>
    unfold parseUintLoop at h
    cases hd : digitVal c with
    | none =>
      rw [hd] at h
      simp only [Prod.mk.injEq, Option.some.injEq] at h
      left; rw [← h.2]; rfl
    | some d =>
      rw [hd] at h
      simp only at h
      split at h
      · simp only [Prod.mk.injEq, Option.some.injEq] at h
        left; rw [← h.2]; rfl
      · split at h
        · simp only [Prod.mk.injEq, Option.some.injEq] at h
          right; rw [← h.2, ← h.1]; exact ⟨rfl, rfl⟩
        · split at h
          · simp only [Prod.mk.injEq, Option.some.injEq] at h
            right; rw [← h.2, ← h.1]; exact ⟨rfl, rfl⟩
          · exact ih _ h

/-! ## strconv.Atoi -/

theorem atoiFastLoop_digits_zero (s0 ds : Bytes) (h : ds.all isDigit = true) :
    atoiFastLoop s0 ds 0 = (((horner ds 0 : Nat) : Int), none) := by
  have := atoiFastLoop_digits s0 ds 0 h
  simpa using this

theorem isDigit_not_sign (c : Byte) (h : isDigit c = true) : c ≠ 45 ∧ c ≠ 43 := by
  rw [isDigit_iff] at h
  constructor <;> (intro hc; subst hc; revert h; decide)

theorem ParseUint10_digits (ds : Bytes) (hne : ds ≠ []) (h : ds.all isDigit = true)
    (hv : horner ds 0 < 2 ^ 64) : ParseUint10 ds = (horner ds 0, none) := by
  unfold ParseUint10
  rw [if_neg hne]
  exact parseUintLoop_digits ds ds 0 h hv

theorem ParseUint10_ok (ds : Bytes) (v : Nat) (h : ParseUint10 ds = (v, none)) :
    ds ≠ [] ∧ ds.all isDigit = true ∧ v = horner ds 0 ∧ v < 2 ^ 64 := by
  unfold ParseUint10 at h
  by_cases hne : ds = []
  · rw [if_pos hne] at h; cases h
  · rw [if_neg hne] at h
    exact ⟨hne, parseUintLoop_ok ds ds 0 v (by decide) h⟩

theorem ParseUint10_err (ds : Bytes) (v : Nat) (e : NumError)
    (h : ParseUint10 ds = (v, some e)) :
    e.Err = .ErrSyntax ∨ (e.Err = .ErrRange ∧ v = 2 ^ 64 - 1) := by
  unfold ParseUint10 at h
  by_cases hne : ds = []
  · rw [if_pos hne] at h
    simp only [Prod.mk.injEq, Option.some.injEq] at h
    left; rw [← h.2]; rfl
  · rw [if_neg hne] at h
    exact parseUintLoop_err ds ds 0 v e h

theorem toInt64_small (u : Nat) (h : u < 2 ^ 63) : toInt64 (u : Int) = u := by
  unfold toInt64
  omega

theorem toInt64_neg (u : Nat) (h : u ≤ 2 ^ 63) :
    toInt64 (-toInt64 (u : Int)) = -(u : Int) := by
  unfold toInt64
  omega

theorem ParseInt10_of_uint (s : Bytes) (un : Nat) (hne : s ≠ [])
    (hu : ParseUint10 (unsignedPart s) = (un, none)) :
    ParseInt10 s =
      if ¬ (s.head? = some 45) ∧ un ≥ 2 ^ 63 then
        (((2 ^ 63 - 1 : Nat) : Int), some (rangeError "ParseInt" s))
      else if s.head? = some 45 ∧ un > 2 ^ 63 then
        (-((2 ^ 63 : Nat) : Int), some (rangeError "ParseInt" s))
      else (if s.head? = some 45 then toInt64 (-toInt64 un) else toInt64 un, none) := by
  unfold ParseInt10
  rw [if_neg hne]
  unfold unsignedPart at hu
  simp only [hu, IntSize]
  by_cases hneg : s.head? = some 45 <;> simp [hneg]

theorem ParseInt10_of_uint_err (s : Bytes) (un : Nat) (e : NumError)
    (hu : ParseUint10 (unsignedPart s) = (un, some e)) :
    (ParseInt10 s).2 ≠ none := by
  unfold ParseInt10
  by_cases hne : s = []
  · rw [if_pos hne]; simp
  · rw [if_neg hne]
    unfold unsignedPart at hu
    simp only [hu, IntSize]
    rcases ParseUint10_err _ un e hu with h | ⟨h1, h2⟩
    · obtain ⟨f, n, k⟩ := e
      simp only at h
      subst h
      simp
    · obtain ⟨f, n, k⟩ := e
      simp only at h1
      subst h1 h2
      by_cases hneg : s.head? = some 45 <;> simp [hneg]

theorem Atoi_slow_ok (s : Bytes) (v : Int) (hlen : ¬ (0 < s.length ∧ s.length < 19))
    (h : ParseInt10 s = (v, none)) : Atoi s = (v, none) := by
  unfold Atoi
  simp only [if_neg hlen, h]

theorem Atoi_slow_err (s : Bytes) (hlen : ¬ (0 < s.length ∧ s.length < 19))
    (h : (Atoi s).2 = none) : (ParseInt10 s).2 = none := by
  unfold Atoi at h
  simp only [if_neg hlen] at h
  split at h
  · cases h
  · next heq => rw [heq]

theorem digitsOnly_iff (s : Bytes) : digitsOnly s = true ↔ s ≠ [] ∧ s.all isDigit = true := by
  simp [digitsOnly]

theorem Atoi_unsigned (ds : Bytes) (hd : digitsOnly ds = true) (hv : horner ds 0 < 2 ^ 63) :
    Atoi ds = (((horner ds 0 : Nat) : Int), none) := by
  obtain ⟨hne, hall⟩ := (digitsOnly_iff ds).mp hd
  obtain ⟨c, rest, rfl⟩ := List.exists_cons_of_ne_nil hne
  have hc : isDigit c = true := by
    simp only [List.all_cons, Bool.and_eq_true] at hall; exact hall.1
  obtain ⟨hc1, hc2⟩ := isDigit_not_sign c hc
  by_cases hlen : 0 < (c :: rest).length ∧ (c :: rest).length < 19
  · unfold Atoi
    simp only [if_pos hlen, List.head?_cons, Option.some.injEq, hc1, hc2, or_self,
      decide_False, Bool.false_eq_true, if_false, false_and]
    rw [atoiFastLoop_digits_zero _ _ hall]
  · apply Atoi_slow_ok _ _ hlen
    have hu : unsignedPart (c :: rest) = c :: rest := by
      simp [unsignedPart, hc1, hc2]
    rw [ParseInt10_of_uint (c :: rest) (horner (c :: rest) 0) hne
      (by rw [hu]; exact ParseUint10_digits _ hne hall (by omega))]
    simp only [List.head?_cons, Option.some.injEq, hc1, false_and, if_false]
    rw [if_neg (by omega), toInt64_small _ hv]

theorem Atoi_minus (ds : Bytes) (hd : digitsOnly ds = true) (hv : horner ds 0 ≤ 2 ^ 63) :
    Atoi (45 :: ds) = (-((horner ds 0 : Nat) : Int), none) := by
  obtain ⟨hne, hall⟩ := (digitsOnly_iff ds).mp hd
  have hl : 0 < ds.length := List.length_pos.mpr hne
  by_cases hlen : 0 < ((45 : Byte) :: ds).length ∧ ((45 : Byte) :: ds).length < 19
  · unfold Atoi
    simp only [if_pos hlen, List.head?_cons, true_or, decide_True, if_true, List.tail_cons]
    rw [if_neg (by omega), atoiFastLoop_digits_zero _ _ hall]
  · apply Atoi_slow_ok _ _ hlen
    have hu : unsignedPart ((45 : Byte) :: ds) = ds := by
      simp [unsignedPart]
    rw [ParseInt10_of_uint (45 :: ds) (horner ds 0) (by simp)
      (by rw [hu]; exact ParseUint10_digits _ hne hall (by omega))]
    simp only [List.head?_cons, not_true_eq_false, false_and, if_false, true_and, if_true]
    rw [if_neg (by omega), toInt64_neg _ hv]

theorem Atoi_plus (ds : Bytes) (hd : digitsOnly ds = true) (hv : horner ds 0 < 2 ^ 63) :
    Atoi (43 :: ds) = (((horner ds 0 : Nat) : Int), none) := by
  obtain ⟨hne, hall⟩ := (digitsOnly_iff ds).mp hd
  have hl : 0 < ds.length := List.length_pos.mpr hne
  have h4345 : ¬ ((43 : Byte) = 45) := by decide
  by_cases hlen : 0 < ((43 : Byte) :: ds).length ∧ ((43 : Byte) :: ds).length < 19
  · unfold Atoi
    simp only [if_pos hlen, List.head?_cons, or_true, decide_True, if_true, List.tail_cons]
    rw [if_neg (by omega), atoiFastLoop_digits_zero _ _ hall]
    simp [h4345]
  · apply Atoi_slow_ok _ _ hlen
    have hu : unsignedPart ((43 : Byte) :: ds) = ds := by
      simp [unsignedPart]
    rw [ParseInt10_of_uint (43 :: ds) (horner ds 0) (by simp)
      (by rw [hu]; exact ParseUint10_digits _ hne hall (by omega))]
    simp only [List.head?_cons, Option.some.injEq, h4345, not_false_eq_true, true_and, false_and,
      if_false]
    rw [if_neg (by omega), toInt64_small _ hv]

/-- Every optionally signed digit string whose value fits an `int` is parsed to
that value. -/
theorem Atoi_of_signedDecimal (s : Bytes) (hs : signedDecimal s = true)
    (hlo : -(2 ^ 63 : Int) ≤ signedValue s) (hhi : signedValue s < 2 ^ 63) :
    Atoi s = (signedValue s, none) := by
  cases s with
  | nil => simp [signedDecimal] at hs
  | cons c rest =>
    unfold signedDecimal at hs
    unfold signedValue at hlo hhi ⊢
    by_cases h45 : c = 45
    · subst h45
      simp only [or_true, if_true] at hs hlo hhi ⊢
      exact Atoi_minus rest hs (by omega)
    · by_cases h43 : c = 43
      · subst h43
        simp only [true_or, if_true, h45, if_false] at hs hlo hhi ⊢
        exact Atoi_plus rest hs (by omega)
      · simp only [h43, h45, or_self, if_false] at hs hlo hhi ⊢
        exact Atoi_unsigned (c :: rest) hs (by omega)

theorem horner_lt_of_short (ds : Bytes) (h : ds.all isDigit = true) (hl : ds.length ≤ 18) :
    horner ds 0 < 10 ^ 18 := by
  have h1 := horner_lt_pow ds 0 h
  have h2 : 10 ^ ds.length ≤ 10 ^ 18 := Nat.pow_le_pow_right (by decide) hl
  omega

theorem Atoi_fast_signed (c : Byte) (rest : Bytes) (hsg : c = 45 ∨ c = 43)
    (hlen : rest.length + 1 < 19) (h : (Atoi (c :: rest)).2 = none) :
    digitsOnly rest = true ∧ horner rest 0 < 10 ^ 18 := by
  unfold Atoi at h
  have hl : 0 < (c :: rest).length ∧ (c :: rest).length < 19 := by
    simp only [List.length_cons]; omega
  simp only [if_pos hl, List.head?_cons, Option.some.injEq, hsg, decide_True, if_true,
    List.tail_cons, true_and] at h
  by_cases hr : rest.length < 1
  · rw [if_pos hr] at h; cases h
  · rw [if_neg hr] at h
    have hall : rest.all isDigit = true := by
      split at h
      · cases h
      · next n heq => exact atoiFastLoop_ok _ _ _ _ heq
    have hne : rest ≠ [] := by
      intro h0; subst h0; simp at hr
    exact ⟨(digitsOnly_iff rest).mpr ⟨hne, hall⟩, horner_lt_of_short rest hall (by omega)⟩

theorem Atoi_fast_unsigned (c : Byte) (rest : Bytes) (hsg : ¬ (c = 45 ∨ c = 43))
    (hlen : rest.length + 1 < 19) (h : (Atoi (c :: rest)).2 = none) :
    digitsOnly (c :: rest) = true ∧ horner (c :: rest) 0 < 10 ^ 18 := by
  unfold Atoi at h
  have hl : 0 < (c :: rest).length ∧ (c :: rest).length < 19 := by
    simp only [List.length_cons]; omega
  simp only [if_pos hl, List.head?_cons, Option.some.injEq, hsg, decide_False,
    Bool.false_eq_true, if_false, false_and] at h
  have hall : (c :: rest).all isDigit = true := by
    split at h
    · cases h
    · next n heq => exact atoiFastLoop_ok _ _ _ _ heq
  exact ⟨(digitsOnly_iff _).mpr ⟨by simp, hall⟩,
    horner_lt_of_short (c :: rest) hall (by simp only [List.length_cons]; omega)⟩

theorem Atoi_fast_ok (s : Bytes) (hlen : 0 < s.length ∧ s.length < 19)
    (h : (Atoi s).2 = none) :
    signedDecimal s = true ∧ -(2 ^ 63 : Int) ≤ signedValue s ∧ signedValue s < 2 ^ 63 := by
  cases s with
  | nil => simp at hlen
  | cons c rest =>
    simp only [List.length_cons] at hlen
    unfold signedDecimal signedValue
    by_cases h45 : c = 45
    · obtain ⟨hd, hb⟩ := Atoi_fast_signed c rest (Or.inl h45) hlen.2 h
      simp only [h45, or_true, if_true]
      refine ⟨hd, ?_, ?_⟩ <;> omega
    · by_cases h43 : c = 43
      · obtain ⟨hd, hb⟩ := Atoi_fast_signed c rest (Or.inr h43) hlen.2 h
        simp only [h43, true_or, if_true]
        have h4345 : ¬ ((43 : Byte) = 45) := by decide
        simp only [h4345, if_false]
        refine ⟨hd, ?_, ?_⟩ <;> omega
      · obtain ⟨hd, hb⟩ := Atoi_fast_unsigned c rest (by simp [h45, h43]) hlen.2 h
        simp only [h43, h45, or_self, if_false]
        refine ⟨hd, ?_, ?_⟩ <;> omega

theorem ParseInt10_ok (s : Bytes) (h : (ParseInt10 s).2 = none) :
    signedDecimal s = true ∧ -(2 ^ 63 : Int) ≤ signedValue s ∧ signedValue s < 2 ^ 63 := by
  cases s with
  | nil => simp [ParseInt10] at h
  | cons c rest =>
    cases hu : ParseUint10 (unsignedPart (c :: rest)) with
    | mk un err =>
      cases err with
      | some e => exact absurd h (ParseInt10_of_uint_err _ un e hu)
      | none =>
        rw [ParseInt10_of_uint _ un (by simp) hu] at h
        obtain ⟨hne, hall, hval, -⟩ := ParseUint10_ok _ un hu
        simp only [List.head?_cons, Option.some.injEq] at h
        unfold signedDecimal signedValue
        unfold unsignedPart at hne hall hval
        simp only [List.head?_cons, Option.some.injEq, List.tail_cons] at hne hall hval
        by_cases h45 : c = 45
        · subst h45
          have h4543 : ¬ ((45 : Byte) = 43) := by decide
          simp only [h4543, if_false, if_true] at hne hall hval
          simp only [not_true_eq_false, false_and, if_false, true_and] at h
          simp only [or_true, if_true]
          by_cases hr : un > 2 ^ 63
          · rw [if_pos hr] at h; cases h
          · refine ⟨(digitsOnly_iff _).mpr ⟨hne, hall⟩, ?_, ?_⟩ <;> omega
        · simp only [h45, not_false_eq_true, true_and, false_and, if_false] at h
          by_cases hr : un ≥ 2 ^ 63
          · rw [if_pos hr] at h; cases h
          · by_cases h43 : c = 43
            · subst h43
              simp only [if_true] at hne hall hval
              simp only [true_or, if_true, h45, if_false]
              refine ⟨(digitsOnly_iff _).mpr ⟨hne, hall⟩, ?_, ?_⟩ <;> omega
            · simp only [h43, h45, if_false] at hne hall hval
              simp only [h43, h45, or_self, if_false]
              refine ⟨(digitsOnly_iff _).mpr ⟨hne, hall⟩, ?_, ?_⟩ <;> omega

/-- Whatever `Atoi` accepts is an optionally signed digit string whose value
fits an `int`. -/
theorem Atoi_ok (s : Bytes) (h : (Atoi s).2 = none) :
    signedDecimal s = true ∧ -(2 ^ 63 : Int) ≤ signedValue s ∧ signedValue s < 2 ^ 63 := by
  by_cases hlen : 0 < s.length ∧ s.length < 19
  · exact Atoi_fast_ok s hlen h
  · exact ParseInt10_ok s (Atoi_slow_err s hlen h)

theorem Atoi_value (s : Bytes) (v : Int) (h : Atoi s = (v, none)) : v = signedValue s := by
  obtain ⟨h1, h2, h3⟩ := Atoi_ok s (by rw [h])
  rw [Atoi_of_signedDecimal s h1 h2 h3] at h
  exact (Prod.mk.inj h).1.symm

/-! ## strings and path/filepath -/

theorem str_segment : str "segment-" = [115, 101, 103, 109, 101, 110, 116, 45] := by decide

theorem TrimPrefix_append (pre s : Bytes) : TrimPrefix (pre ++ s) pre = s := by
  simp [TrimPrefix, HasPrefix]

theorem TrimPrefix_of_not (s pre : Bytes) (h : HasPrefix s pre = false) :
    TrimPrefix s pre = s := by
  simp [TrimPrefix, h]

theorem TrimPrefix_of_has (s pre : Bytes) (h : HasPrefix s pre = true) :
    TrimPrefix s pre = s.drop pre.length := by
  simp [TrimPrefix, h]

theorem splitScan_succ (path : Bytes) (k : Nat) :
    splitScan path (k + 1) =
      if !IsPathSeparator (path.getD k 0) then splitScan path k else k + 1 := rfl

theorem splitScan_skip (pre name : Bytes) (hn : ∀ c ∈ name, c ≠ Separator) (k : Nat)
    (hk : k ≤ name.length) :
    splitScan (pre ++ name) (pre.length + k) = splitScan (pre ++ name) pre.length := by
  induction k with
  | zero => rfl
  | succ k ih =>
    have hk1 : k < name.length := by omega
    have hget : (pre ++ name).getD (pre.length + k) 0 = name[k] := by
      rw [List.getD_eq_getElem?_getD, List.getElem?_append_right (by omega)]
      simp [hk1]
    have hns : name[k] ≠ Separator := hn _ (List.getElem_mem hk1)
    rw [← Nat.add_assoc, splitScan_succ, hget]
    simp only [IsPathSeparator, hns, decide_False, Bool.not_false, if_true]
    exact ih (by omega)

theorem splitScan_sep (pre name : Bytes) :
    splitScan ((pre ++ [Separator]) ++ name) (pre ++ [Separator]).length =
      (pre ++ [Separator]).length := by
  have hl : (pre ++ [Separator]).length = pre.length + 1 := by simp
  rw [hl, splitScan_succ]
  have hget : ((pre ++ [Separator]) ++ name).getD pre.length 0 = Separator := by
    rw [List.getD_eq_getElem?_getD, List.append_assoc,
      List.getElem?_append_right (Nat.le_refl _)]
    simp
  rw [hget]
  simp [IsPathSeparator]

theorem Split_at (l₁ l₂ : Bytes)
    (h : splitScan (l₁ ++ l₂) (l₁ ++ l₂).length = l₁.length) : Split (l₁ ++ l₂) = (l₁, l₂) := by
  unfold Split
  simp only [h, List.take_left, List.drop_left]

/-- A path without separator is its own file name. -/
theorem Split_no_sep (name : Bytes) (hn : ∀ c ∈ name, c ≠ Separator) :
    Split name = ([], name) := by
  have h := splitScan_skip [] name hn name.length (Nat.le_refl _)
  simp only [List.nil_append, List.length_nil, Nat.zero_add] at h
  unfold Split
  simp only [h]
  simp [splitScan]

/-- The file name of `dir/name` is `name` when `name` has no separator. -/
theorem Split_after_sep (pre name : Bytes) (hn : ∀ c ∈ name, c ≠ Separator) :
    Split ((pre ++ [Separator]) ++ name) = (pre ++ [Separator], name) := by
  have h := splitScan_skip (pre ++ [Separator]) name hn name.length (Nat.le_refl _)
  rw [splitScan_sep] at h
  exact Split_at _ _ (by rw [List.length_append, h])

theorem isDigit_ne_sep (c : Byte) (h : isDigit c = true) : c ≠ Separator := by
  rw [isDigit_iff] at h
  intro hc; subst hc; revert h; decide

theorem decimal_no_sep (n : Nat) : ∀ c ∈ decimal n, c ≠ Separator := by
  intro c hc
  have := (decimal_spec n).2.1
  rw [List.all_eq_true] at this
  exact isDigit_ne_sep c (this c hc)

theorem segment_no_sep (ds : Bytes) (h : ∀ c ∈ ds, c ≠ Separator) :
    ∀ c ∈ str "segment-" ++ ds, c ≠ Separator := by
  intro c hc
  rw [List.mem_append] at hc
  rcases hc with hc | hc
  · rw [str_segment] at hc
    intro h0; subst h0; revert hc; decide
  · exact h c hc

/-! ## findLastSegmentIndexInFiles -/

theorem findLastLoop_cons (file : Bytes) (files : List Bytes) (last : Int) :
    findLastLoop (file :: files) last =
      match parseSegmentID file with
      | (_, some err) => (0, some err)
      | (segmentID, none) =>
        findLastLoop files (if segmentID > last then segmentID else last) := rfl

theorem findLastLoop_fails (files : List Bytes) (last : Int) (f : Bytes) (hf : f ∈ files)
    (he : (parseSegmentID f).2 ≠ none) :
    (findLastLoop files last).1 = 0 ∧ (findLastLoop files last).2 ≠ none := by
  induction files generalizing last with
  | nil => cases hf
  | cons g rest ih =>
    rw [findLastLoop_cons]
    cases hg : parseSegmentID g with
    | mk v err =>
      cases err with
      | some e => simp
      | none =>
        simp only
        rcases List.mem_cons.mp hf with h | h
        · subst h; rw [hg] at he; exact absurd rfl he
        · exact ih _ h

theorem findLastLoop_ok (files : List Bytes) (last : Int)
    (h : ∀ f ∈ files, (parseSegmentID f).2 = none) :
    findLastLoop files last =
      (files.foldl (fun m f => max m (parseSegmentID f).1) last, none) := by
  induction files generalizing last with
  | nil => rfl
  | cons g rest ih =>
    rw [findLastLoop_cons]
    have hg := h g (List.mem_cons_self _ _)
    cases hp : parseSegmentID g with
    | mk v err =>
      rw [hp] at hg
      simp only at hg
      subst hg
      simp only [List.foldl_cons, hp]
      rw [ih _ (fun f hf => h f (List.mem_cons_of_mem _ hf))]
      congr 2
      by_cases hv : v > last
      · rw [if_pos hv, max_eq_right (le_of_lt hv)]
      · rw [if_neg hv, max_eq_left (not_lt.mp hv)]

theorem parseSegmentID_segmentName (n : Nat) (h : n < 2 ^ 63) :
    parseSegmentID (segmentName n) = ((n : Int), none) := by
  obtain ⟨hne, hall, hval, -, -⟩ := decimal_spec n
  unfold parseSegmentID segmentName
  rw [Split_no_sep _ (segment_no_sep _ (decimal_no_sep n)), TrimPrefix_append,
    Atoi_unsigned _ ((digitsOnly_iff _).mpr ⟨hne, hall⟩) (by rw [hval]; exact h), hval]

theorem foldl_max_spec (ns : List Nat) (a : Nat) :
    (ns.foldl max a = a ∨ ns.foldl max a ∈ ns) ∧ a ≤ ns.foldl max a ∧
      ∀ n ∈ ns, n ≤ ns.foldl max a := by
  induction ns generalizing a with
  | nil => simp
  | cons x rest ih =>
    obtain ⟨h1, h2, h3⟩ := ih (max a x)
    simp only [List.foldl_cons, List.mem_cons]
    refine ⟨?_, ?_, ?_⟩
    · rcases h1 with h1 | h1
      · rcases le_total a x with hax | hax
        · right; left; rw [h1]; exact max_eq_right hax
        · left; rw [h1]; exact max_eq_left hax
      · right; right; exact h1
    · exact le_trans (le_max_left a x) h2
    · intro n hn
      rcases hn with hn | hn
      · subst hn; exact le_trans (le_max_right a n) h2
      · exact h3 n hn

theorem findLastLoop_segmentNames (ns : List Nat) (a : Nat) (h : ∀ n ∈ ns, n < 2 ^ 63) :
    findLastLoop (ns.map segmentName) (a : Int) = (((ns.foldl max a : Nat) : Int), none) := by
  induction ns generalizing a with
  | nil => rfl
  | cons x rest ih =>
    rw [List.map_cons, findLastLoop_cons, parseSegmentID_segmentName x (h x (List.mem_cons_self _ _))]
    simp only [List.foldl_cons]
    have e : (if (x : Int) > (a : Int) then (x : Int) else (a : Int)) = ((max a x : Nat) : Int) := by
      by_cases hx : (x : Int) > (a : Int)
      · rw [if_pos hx, max_eq_right (by omega)]
      · rw [if_neg hx, max_eq_left (by omega)]
    rw [e]
    exact ih _ (fun n hn => h n (List.mem_cons_of_mem _ hn))

/-- C3, as stated, fails: the name `segment-9223372036854775808` is `segment-`
followed by the decimal representation of a non-negative integer, yet the call
on the one-element list returns a range error instead of that integer. -/
theorem findLast_rejects_large_id :
    findLastSegmentIndexInFiles [segmentName 9223372036854775808] =
      (0, some ⟨"Atoi", decimal 9223372036854775808, .ErrRange⟩) := by
  decide

/-- C3, amended: for a non-empty list of names `segment-<n>` with every `n` below
`2^63`, `findLastSegmentIndexInFiles` returns no error and the maximum of the
integers. -/
theorem findLast_segmentNames_max (ns : List Nat) (hne : ns ≠ [])
    (hr : ∀ n ∈ ns, n < 2 ^ 63) :
    ∃ m ∈ ns, (∀ n ∈ ns, n ≤ m) ∧
      findLastSegmentIndexInFiles (ns.map segmentName) = ((m : Int), none) := by
  obtain ⟨h1, -, h3⟩ := foldl_max_spec ns 0
  have hf := findLastLoop_segmentNames ns 0 hr
  refine ⟨ns.foldl max 0, ?_, h3, hf⟩
  rcases h1 with h1 | h1
  · obtain ⟨x, rest, rfl⟩ := List.exists_cons_of_ne_nil hne
    have hx := h3 x (List.mem_cons_self _ _)
    rw [h1] at hx ⊢
    have : x = 0 := by omega
    subst this
    exact List.mem_cons_self _ _
  · exact h1

/-- The list `segment-0`, `segment-3`, `segment-1` meets the conditions and has a maximum that the call returns. -/
theorem findLast_segmentNames_max_witness :
    ([0, 3, 1] : List Nat) ≠ [] ∧ (∀ n ∈ ([0, 3, 1] : List Nat), n < 2 ^ 63) ∧
      ∃ m ∈ ([0, 3, 1] : List Nat), (∀ n ∈ ([0, 3, 1] : List Nat), n ≤ m) ∧
        findLastSegmentIndexInFiles (([0, 3, 1] : List Nat).map segmentName) = ((m : Int), none) :=
  ⟨by decide, by decide, findLast_segmentNames_max [0, 3, 1] (by decide) (by decide)⟩

/-- C4: when the segment-id parse of some entry of the list fails, wherever the
entry stands, `findLastSegmentIndexInFiles` returns an error (and the id 0). -/
theorem findLast_fails_of_bad_entry (files : List Bytes) (f : Bytes) (hf : f ∈ files)
    (he : (parseSegmentID f).2 ≠ none) :
    (findLastSegmentIndexInFiles files).2 ≠ none ∧ (findLastSegmentIndexInFiles files).1 = 0 :=
  ⟨(findLastLoop_fails files 0 f hf he).2, (findLastLoop_fails files 0 f hf he).1⟩

/-- The list `segment-2`, `notasegment.txt` holds an entry whose parse fails, and the call fails. -/
theorem findLast_fails_of_bad_entry_witness :
    str "notasegment.txt" ∈ [str "segment-2", str "notasegment.txt"] ∧
      (parseSegmentID (str "notasegment.txt")).2 ≠ none ∧
      (findLastSegmentIndexInFiles [str "segment-2", str "notasegment.txt"]).2 ≠ none ∧
      (findLastSegmentIndexInFiles [str "segment-2", str "notasegment.txt"]).1 = 0 :=
  ⟨by decide, by decide,
    findLast_fails_of_bad_entry [str "segment-2", str "notasegment.txt"] (str "notasegment.txt")
      (by decide) (by decide)⟩

/-- C9: on the empty list `findLastSegmentIndexInFiles` returns 0 and no error. -/
theorem findLast_nil : findLastSegmentIndexInFiles [] = (0, none) := rfl

/-! ## Which names the scan accepts -/

theorem Atoi_fails_iff (s : Bytes) : (Atoi s).2 ≠ none ↔ ¬ intLiteral s := by
  constructor
  · intro h hl
    obtain ⟨h1, h2, h3⟩ := hl
    rw [Atoi_of_signedDecimal s h1 h2 h3] at h
    exact h rfl
  · intro h hn
    exact h (Atoi_ok s hn)

theorem parseSegmentID_unprefixed (f : Bytes)
    (hp : HasPrefix (Split f).2 (str "segment-") = false) :
    parseSegmentID f = Atoi (Split f).2 := by
  unfold parseSegmentID
  rw [TrimPrefix_of_not _ _ hp]

theorem parseSegmentID_prefixed (f : Bytes)
    (hp : HasPrefix (Split f).2 (str "segment-") = true) :
    parseSegmentID f = Atoi ((Split f).2.drop 8) := by
  unfold parseSegmentID
  rw [TrimPrefix_of_has _ _ hp, str_segment]
  rfl

/-- C7, as stated, fails: the file name `5` does not begin with `segment-`, yet
its parse succeeds and the call on the list holding it returns 5 and no error. -/
theorem findLast_accepts_bare_number :
    HasPrefix (Split (str "5")).2 (str "segment-") = false ∧
      parseSegmentID (str "5") = (5, none) ∧
      findLastSegmentIndexInFiles [str "5"] = (5, none) := by
  decide

/-- C7, amended: when the final path component does not begin with `segment-`,
the parse is `Atoi` of the whole component; it fails exactly when the component
is not an optionally signed run of ASCII digits whose value fits a 64-bit int,
and then the call on every list containing the filename returns an error. -/
theorem parse_unprefixed_name (f : Bytes)
    (hp : HasPrefix (Split f).2 (str "segment-") = false) :
    parseSegmentID f = Atoi (Split f).2 ∧
      ((parseSegmentID f).2 ≠ none ↔ ¬ intLiteral (Split f).2) ∧
      (¬ intLiteral (Split f).2 →
        ∀ files : List Bytes, f ∈ files → (findLastSegmentIndexInFiles files).2 ≠ none) := by
  have hq := parseSegmentID_unprefixed f hp
  refine ⟨hq, ?_, ?_⟩
  · rw [hq]; exact Atoi_fails_iff _
  · intro hn files hf
    refine (findLastLoop_fails files 0 f hf ?_).2
    rw [hq]; exact (Atoi_fails_iff _).mpr hn

/-- The name `dir/notasegment.txt` lacks the leading `segment-`, is no integer literal, and makes the call fail. -/
theorem parse_unprefixed_name_witness :
    HasPrefix (Split (str "dir/notasegment.txt")).2 (str "segment-") = false ∧
      ¬ intLiteral (Split (str "dir/notasegment.txt")).2 ∧
      (parseSegmentID (str "dir/notasegment.txt")).2 ≠ none ∧
      (findLastSegmentIndexInFiles [str "segment-2", str "dir/notasegment.txt"]).2 ≠ none :=
  ⟨by decide, by decide,
    (parse_unprefixed_name (str "dir/notasegment.txt") (by decide)).2.1.mpr (by decide),
    (parse_unprefixed_name (str "dir/notasegment.txt") (by decide)).2.2 (by decide)
      [str "segment-2", str "dir/notasegment.txt"] (by decide)⟩

/-- C8, as stated, fails: the remainder `007` of `segment-007` has leading
zeros, so it is the decimal representation of no integer, yet the call on the
list holding that name returns 7 and no error. -/
theorem findLast_accepts_leading_zeros :
    HasPrefix (Split (str "segment-007")).2 (str "segment-") = true ∧
      (∀ n : Nat, (Split (str "segment-007")).2.drop 8 ≠ decimal n) ∧
      findLastSegmentIndexInFiles [str "segment-007"] = (7, none) := by
  refine ⟨by decide, ?_, by decide⟩
  intro n h
  have hv := (decimal_spec n).2.2.1
  rw [← h] at hv
  have h7 : horner ((Split (str "segment-007")).2.drop 8) 0 = 7 := by decide
  rw [h7] at hv
  subst hv
  revert h
  decide

/-- C8, amended: when the final path component begins with `segment-`, the parse
is `Atoi` of the remainder; it fails exactly when the remainder is not an
optionally signed run of one or more ASCII digits whose value fits a 64-bit int
(so an empty remainder, a lone sign and a remainder with a suffix fail, while
leading zeros and one leading sign are accepted), and then the call on every
list containing the filename returns an error. -/
theorem parse_prefixed_name (f : Bytes)
    (hp : HasPrefix (Split f).2 (str "segment-") = true) :
    parseSegmentID f = Atoi ((Split f).2.drop 8) ∧
      ((parseSegmentID f).2 ≠ none ↔ ¬ intLiteral ((Split f).2.drop 8)) ∧
      (¬ intLiteral ((Split f).2.drop 8) →
        ∀ files : List Bytes, f ∈ files → (findLastSegmentIndexInFiles files).2 ≠ none) := by
  have hq := parseSegmentID_prefixed f hp
  refine ⟨hq, ?_, ?_⟩
  · rw [hq]; exact Atoi_fails_iff _
  · intro hn files hf
    refine (findLastLoop_fails files 0 f hf ?_).2
    rw [hq]; exact (Atoi_fails_iff _).mpr hn

/-- The name `segment-12.bak` has a suffix after the digits, and makes the call fail. -/
theorem parse_prefixed_name_witness :
    HasPrefix (Split (str "segment-12.bak")).2 (str "segment-") = true ∧
      ¬ intLiteral ((Split (str "segment-12.bak")).2.drop 8) ∧
      (parseSegmentID (str "segment-12.bak")).2 ≠ none ∧
      (findLastSegmentIndexInFiles [str "segment-1", str "segment-12.bak"]).2 ≠ none :=
  ⟨by decide, by decide,
    (parse_prefixed_name (str "segment-12.bak") (by decide)).2.1.mpr (by decide),
    (parse_prefixed_name (str "segment-12.bak") (by decide)).2.2 (by decide)
      [str "segment-1", str "segment-12.bak"] (by decide)⟩

/-! ## CRC-32 -/

theorem shiftRight_xor (a b k : Nat) : (a ^^^ b) >>> k = (a >>> k) ^^^ (b >>> k) := by
  apply Nat.eq_of_testBit_eq
  intro i
  simp

theorem IEEETable_lt : ∀ i < 256, IEEETable i < 2 ^ 32 := by decide!

theorem IEEETable_top_nodup :
    ((List.range 256).map (fun i => IEEETable i >>> 24)).Nodup := by decide!

/-- The top byte of a table entry determines its index. -/
theorem IEEETable_top_inj (i j : Nat) (hi : i < 256) (hj : j < 256)
    (h : IEEETable i >>> 24 = IEEETable j >>> 24) : i = j :=
  List.inj_on_of_nodup_map IEEETable_top_nodup (List.mem_range.mpr hi) (List.mem_range.mpr hj) h

theorem index_lt (crc : Nat) (v : Byte) : (crc % 256) ^^^ v.val < 256 := by
  have h1 : crc % 256 < 2 ^ 8 := Nat.mod_lt _ (by decide)
  have h2 : v.val < 2 ^ 8 := v.isLt
  exact Nat.xor_lt_two_pow h1 h2

theorem updateByte_lt (crc : Nat) (v : Byte) (h : crc < 2 ^ 32) :
    updateByte IEEETable crc v < 2 ^ 32 := by
  unfold updateByte
  apply Nat.xor_lt_two_pow (IEEETable_lt _ (index_lt crc v))
  rw [Nat.shiftRight_eq_div_pow]
  omega

theorem foldl_updateByte_lt (p : Bytes) (crc : Nat) (h : crc < 2 ^ 32) :
    p.foldl (updateByte IEEETable) crc < 2 ^ 32 := by
  induction p generalizing crc with
  | nil => exact h
  | cons v rest ih => exact ih _ (updateByte_lt crc v h)

theorem updateByte_top (crc : Nat) (v : Byte) (h : crc < 2 ^ 32) :
    updateByte IEEETable crc v >>> 24 = IEEETable ((crc % 256) ^^^ v.val) >>> 24 := by
  unfold updateByte
  rw [shiftRight_xor]
  have : crc >>> 8 >>> 24 = 0 := by
    rw [← Nat.shiftRight_add, Nat.shiftRight_eq_div_pow]
    exact Nat.div_eq_of_lt h
  rw [this, Nat.xor_zero]

/-- One update step is injective in the running CRC. -/
theorem updateByte_inj_crc (c₁ c₂ : Nat) (v : Byte) (h₁ : c₁ < 2 ^ 32) (h₂ : c₂ < 2 ^ 32)
    (h : updateByte IEEETable c₁ v = updateByte IEEETable c₂ v) : c₁ = c₂ := by
  have ht : IEEETable ((c₁ % 256) ^^^ v.val) >>> 24 = IEEETable ((c₂ % 256) ^^^ v.val) >>> 24 := by
    rw [← updateByte_top c₁ v h₁, ← updateByte_top c₂ v h₂, h]
  have hi := IEEETable_top_inj _ _ (index_lt c₁ v) (index_lt c₂ v) ht
  have hlo : c₁ % 256 = c₂ % 256 := Nat.xor_left_inj.mp hi
  unfold updateByte at h
  rw [hi] at h
  have hhi : c₁ >>> 8 = c₂ >>> 8 := Nat.xor_right_inj.mp h
  rw [Nat.shiftRight_eq_div_pow, Nat.shiftRight_eq_div_pow] at hhi
  omega

/-- One update step is injective in the byte it consumes. -/
theorem updateByte_inj_byte (c : Nat) (v₁ v₂ : Byte)
    (h : updateByte IEEETable c v₁ = updateByte IEEETable c v₂) : v₁ = v₂ := by
  unfold updateByte at h
  have ht := Nat.xor_left_inj.mp h
  have hi := IEEETable_top_inj _ _ (index_lt c v₁) (index_lt c v₂) (by rw [ht])
  exact Fin.ext (Nat.xor_right_inj.mp hi)

theorem foldl_updateByte_inj (p : Bytes) (c₁ c₂ : Nat) (h₁ : c₁ < 2 ^ 32) (h₂ : c₂ < 2 ^ 32)
    (h : p.foldl (updateByte IEEETable) c₁ = p.foldl (updateByte IEEETable) c₂) : c₁ = c₂ := by
  induction p generalizing c₁ c₂ with
  | nil => exact h
  | cons v rest ih =>
    exact updateByte_inj_crc c₁ c₂ v h₁ h₂
      (ih _ _ (updateByte_lt c₁ v h₁) (updateByte_lt c₂ v h₂) h)

/-- Replacing one byte of the input by a different one changes the checksum. -/
theorem ChecksumIEEE_byte_change (pre post : Bytes) (b b' : Byte) (hb : b' ≠ b) :
    ChecksumIEEE (pre ++ b' :: post) ≠ ChecksumIEEE (pre ++ b :: post) := by
  intro h
  unfold ChecksumIEEE simpleUpdate at h
  have h0 := Nat.xor_left_inj.mp h
  simp only [List.foldl_append, List.foldl_cons] at h0
  have hc : List.foldl (updateByte IEEETable) (0 ^^^ 0xffffffff) pre < 2 ^ 32 :=
    foldl_updateByte_lt pre _ (by decide)
  have h1 := foldl_updateByte_inj post _ _ (updateByte_lt _ b' hc) (updateByte_lt _ b hc) h0
  exact hb (updateByte_inj_byte _ _ _ h1)

theorem flipByteBit_ne (b : Byte) (k : Nat) : flipByteBit b k ≠ b := by
  have h : ∀ b : Byte, ∀ j : Fin 8, flipByteBit b j.val ≠ b := by decide!
  have e : flipByteBit b k = flipByteBit b (k % 8) := by
    unfold flipByteBit; rw [Nat.mod_mod]
  rw [e]
  exact h b ⟨k % 8, Nat.mod_lt _ (by decide)⟩

theorem flipBit_split (p : Bytes) (i : Nat) (h : i < 8 * p.length) :
    ∃ pre b post, p = pre ++ b :: post ∧ flipBit p i = pre ++ flipByteBit b (i % 8) :: post := by
  induction p generalizing i with
  | nil => simp at h
  | cons c rest ih =>
    unfold flipBit
    by_cases hi : i < 8
    · rw [if_pos hi]
      refine ⟨[], c, rest, rfl, ?_⟩
      simp [flipByteBit, Nat.mod_mod]
    · rw [if_neg hi]
      obtain ⟨pre, b, post, h1, h2⟩ := ih (i - 8) (by simp only [List.length_cons] at h; omega)
      refine ⟨c :: pre, b, post, by rw [h1]; rfl, ?_⟩
      rw [h2]
      have : (i - 8) % 8 = i % 8 := by omega
      rw [this]
      rfl

/-- C10: inverting any single bit of the payload, the sequence number unchanged,
changes the checksum `verifyCRC` computes; a record that verified before the
flip is rejected after it when its checksum field is kept. -/
theorem crc_detects_bit_flip (payload : Bytes) (s : Uint64) (i : Nat)
    (hi : i < 8 * payload.length) :
    ChecksumIEEE (flipBit payload i ++ [byteOfUint64 s]) ≠
        ChecksumIEEE (payload ++ [byteOfUint64 s]) ∧
      ∀ (c : Uint32) (u : Bytes), verifyCRC ⟨s, payload, c, u⟩ = true →
        verifyCRC ⟨s, flipBit payload i, c, u⟩ = false := by
  obtain ⟨pre, b, post, h1, h2⟩ := flipBit_split payload i hi
  have hne : ChecksumIEEE (flipBit payload i ++ [byteOfUint64 s]) ≠
      ChecksumIEEE (payload ++ [byteOfUint64 s]) := by
    rw [h2]
    conv_rhs => rw [h1]
    simp only [List.append_assoc, List.cons_append]
    exact ChecksumIEEE_byte_change pre (post ++ [byteOfUint64 s]) b _ (flipByteBit_ne b _)
  refine ⟨hne, ?_⟩
  intro c u hv
  simp only [verifyCRC, decide_eq_true_eq, decide_eq_false_iff_not] at hv ⊢
  intro hc
  exact hne (by rw [← hc, ← hv])

/-- Bit 11 of the payload `ab` with sequence number 2. -/
theorem crc_detects_bit_flip_witness :
    11 < 8 * (str "ab").length ∧
      (ChecksumIEEE (flipBit (str "ab") 11 ++ [byteOfUint64 2]) ≠
          ChecksumIEEE (str "ab" ++ [byteOfUint64 2]) ∧
        ∀ (c : Uint32) (u : Bytes), verifyCRC ⟨2, str "ab", c, u⟩ = true →
          verifyCRC ⟨2, flipBit (str "ab") 11, c, u⟩ = false) :=
  ⟨by decide, crc_detects_bit_flip (str "ab") 2 11 (by decide)⟩

/-! ## The table-driven CRC is the bit-at-a-time CRC -/

theorem populateStep_xor (poly a b : Nat) :
    populateStep poly (a ^^^ b) = populateStep poly a ^^^ populateStep poly b := by
  have hmod : (a ^^^ b) % 2 = (a % 2 + b % 2) % 2 := by
    have h := Nat.testBit_xor a b 0
    simp only [Nat.testBit_zero] at h
    rcases Nat.mod_two_eq_zero_or_one a with ha | ha <;>
      rcases Nat.mod_two_eq_zero_or_one b with hb | hb <;>
      rcases Nat.mod_two_eq_zero_or_one (a ^^^ b) with hab | hab <;>
      simp [ha, hb, hab] at h ⊢
  unfold populateStep
  rw [shiftRight_xor]
  rcases Nat.mod_two_eq_zero_or_one a with ha | ha <;>
    rcases Nat.mod_two_eq_zero_or_one b with hb | hb <;>
    simp only [hmod, ha, hb, if_true, if_false, Nat.zero_ne_one, Nat.add_zero, Nat.zero_add,
      Nat.zero_mod, Nat.one_mod, Nat.reduceAdd, Nat.reduceMod]
  all_goals
    apply Nat.eq_of_testBit_eq
    intro i
    simp only [Nat.testBit_xor]
    cases Nat.testBit (a >>> 1) i <;> cases Nat.testBit (b >>> 1) i <;>
      cases Nat.testBit poly i <;> rfl

theorem populateStep_iterate_xor (poly k a b : Nat) :
    (populateStep poly)^[k] (a ^^^ b) =
      (populateStep poly)^[k] a ^^^ (populateStep poly)^[k] b := by
  induction k generalizing a b with
  | zero => rfl
  | succ k ih =>
    simp only [Function.iterate_succ, Function.comp_apply]
    rw [populateStep_xor, ih]

theorem populateStep_iterate_shift (poly k z : Nat) :
    (populateStep poly)^[k] (z <<< k) = z := by
  induction k generalizing z with
  | zero => rfl
  | succ k ih =>
    simp only [Function.iterate_succ, Function.comp_apply]
    have h : populateStep poly (z <<< (k + 1)) = z <<< k := by
      unfold populateStep
      have e : z <<< (k + 1) = 2 * (z <<< k) := by
        rw [Nat.shiftLeft_eq, Nat.shiftLeft_eq, pow_succ]; ring
      rw [e, if_neg (by omega), Nat.shiftRight_eq_div_pow]
      omega
    rw [h, ih]

theorem split_low_bits (x k : Nat) : x = (x % 2 ^ k) ^^^ ((x >>> k) <<< k) := by
  apply Nat.eq_of_testBit_eq
  intro i
  simp only [Nat.testBit_xor, Nat.testBit_mod_two_pow, Nat.testBit_shiftLeft,
    Nat.testBit_shiftRight]
  by_cases h : i < k
  · have h2 : ¬ (i ≥ k) := by omega
    simp [h, h2]
  · have h2 : i ≥ k := by omega
    have e : k + (i - k) = i := by omega
    simp [h, h2, e]

/-- Eight shift steps split into a table look-up for the low byte and the
remaining bits shifted down. -/
theorem populateStep_eight (poly x : Nat) :
    (populateStep poly)^[8] x = (populateStep poly)^[8] (x % 256) ^^^ (x >>> 8) := by
  have h := split_low_bits x 8
  conv_lhs => rw [h]
  rw [populateStep_iterate_xor, populateStep_iterate_shift]
  rfl

theorem updateByte_eq_bitwise (crc : Nat) (v : Byte) :
    updateByte IEEETable crc v = (populateStep 0xEDB88320)^[8] (crc ^^^ v.val) := by
  have hv : v.val < 2 ^ 8 := v.isLt
  have hlow : (crc ^^^ v.val) % 256 = (crc % 256) ^^^ v.val := by
    apply Nat.eq_of_testBit_eq
    intro i
    show ((crc ^^^ v.val) % 2 ^ 8).testBit i = ((crc % 2 ^ 8) ^^^ v.val).testBit i
    simp only [Nat.testBit_xor, Nat.testBit_mod_two_pow]
    by_cases h : i < 8
    · simp [h]
    · have hvi : v.val.testBit i = false :=
        Nat.testBit_lt_two_pow (Nat.lt_of_lt_of_le hv (Nat.pow_le_pow_right (by decide) (by omega)))
      simp [h, hvi]
  have hhigh : (crc ^^^ v.val) >>> 8 = crc >>> 8 := by
    rw [shiftRight_xor]
    have : v.val >>> 8 = 0 := by
      rw [Nat.shiftRight_eq_div_pow]; exact Nat.div_eq_of_lt hv
    rw [this, Nat.xor_zero]
  rw [populateStep_eight, hlow, hhigh]
  rfl

/-- The checksum `crc32.ChecksumIEEE` computes from its table is the
bit-at-a-time CRC-32 of the IEEE polynomial. -/
theorem ChecksumIEEE_eq_reference (data : Bytes) : ChecksumIEEE data = crc32Reference data := by
  unfold ChecksumIEEE simpleUpdate crc32Reference
  congr 1
  have hfun : updateByte IEEETable =
      fun crc v => (populateStep 0xEDB88320)^[8] (crc ^^^ v.val) := by
    funext crc v
    exact updateByte_eq_bitwise crc v
  rw [hfun]
  rfl

/-- C1: `verifyCRC` accepts the record `(payload, s, c)` exactly when `c` is the
checksum `crc32.ChecksumIEEE` of the payload followed by the byte `s mod 256`,
which is the bit-at-a-time CRC-32 of the IEEE polynomial; the payload
`12345678` with sequence number 57 is accepted exactly for `c = 0xCBF43926`. -/
theorem verifyCRC_iff (payload : Bytes) (s : Uint64) (c : Uint32) (u : Bytes) :
    (verifyCRC ⟨s, payload, c, u⟩ = true ↔
      c.val = ChecksumIEEE (payload ++ [⟨s.val % 256, Nat.mod_lt _ (by decide)⟩])) ∧
    ChecksumIEEE (payload ++ [⟨s.val % 256, Nat.mod_lt _ (by decide)⟩]) =
      crc32Reference (payload ++ [⟨s.val % 256, Nat.mod_lt _ (by decide)⟩]) ∧
    (verifyCRC ⟨57, str "12345678", c, u⟩ = true ↔ c = 0xCBF43926) := by
  refine ⟨?_, ChecksumIEEE_eq_reference _, ?_⟩
  · simp [verifyCRC, byteOfUint64]
  · have h : ChecksumIEEE (str "12345678" ++ [byteOfUint64 57]) = 3421780262 := by decide!
    simp only [verifyCRC, h, decide_eq_true_eq]
    constructor
    · intro hc; exact Fin.ext hc
    · intro hc; rw [hc]; rfl

/-! ## filepath.Clean keeps a final plain element -/

theorem SepEnd_tail (c : Byte) (p : Bytes) (h : SepEnd (c :: p)) (hc : c ≠ Separator) :
    p ≠ [] ∧ SepEnd p := by
  rcases h with h | ⟨q, hq⟩
  · cases h
  · cases q with
    | nil =>
      simp only [List.nil_append, List.cons.injEq] at hq
      exact absurd hq.1 hc
    | cons d q' =>
      simp only [List.cons_append, List.cons.injEq] at hq
      refine ⟨?_, Or.inr ⟨q', hq.2⟩⟩
      rw [hq.2]; simp

theorem takeWhile_no_sep (name : Bytes) (hn : ∀ b ∈ name, b ≠ Separator) :
    name.takeWhile (fun b => !IsPathSeparator b) = name ∧
      name.dropWhile (fun b => !IsPathSeparator b) = [] := by
  induction name with
  | nil => simp
  | cons c rest ih =>
    have hc : IsPathSeparator c = false := by
      simp [IsPathSeparator, hn c (List.mem_cons_self _ _)]
    obtain ⟨h1, h2⟩ := ih (fun b hb => hn b (List.mem_cons_of_mem _ hb))
    simp only [List.takeWhile_cons, List.dropWhile_cons, hc, Bool.not_false, if_true, h1, h2,
      and_self]

/-- Copying an element that starts inside a part ending with a separator stops
inside that part. -/
theorem span_sepEnd (q name : Bytes) :
    ∃ q', (q ++ [Separator] ++ name).takeWhile (fun b => !IsPathSeparator b) =
          q.takeWhile (fun b => !IsPathSeparator b) ∧
        (q ++ [Separator] ++ name).dropWhile (fun b => !IsPathSeparator b) =
          q' ++ [Separator] ++ name ∧ q'.length ≤ q.length := by
  induction q with
  | nil =>
    have hs : IsPathSeparator Separator = true := by decide
    exact ⟨[], by simp [List.takeWhile_cons, hs], by simp [List.dropWhile_cons, hs],
      Nat.le_refl _⟩
  | cons c q ih =>
    obtain ⟨q', h1, h2, h3⟩ := ih
    by_cases hc : c = Separator
    · subst hc
      have hs : IsPathSeparator Separator = true := by decide
      exact ⟨Separator :: q, by simp [List.takeWhile_cons, hs],
        by simp [List.dropWhile_cons, hs], Nat.le_refl _⟩
    · have hs : IsPathSeparator c = false := by simp [IsPathSeparator, hc]
      refine ⟨q', ?_, ?_, ?_⟩
      · simp only [List.cons_append, List.takeWhile_cons, hs, Bool.not_false, if_true]
        rw [h1]
      · simp only [List.cons_append, List.dropWhile_cons, hs, Bool.not_false, if_true]
        exact h2
      · simp only [List.length_cons]; omega

theorem backtrack_ge (buf : Bytes) (dotdot w : Nat) (h : dotdot ≤ w) :
    dotdot ≤ backtrack buf dotdot w := by
  induction w with
  | zero => simpa [backtrack] using h
  | succ w ih =>
    unfold backtrack
    split
    · next hc => exact ih (by omega)
    · exact h

theorem RootInv_take (rooted : Bool) (out : Bytes) (dotdot : Nat)
    (h : RootInv rooted out dotdot) (hl : out.length > dotdot) :
    RootInv rooted (out.take (backtrack out dotdot (out.length - 1))) dotdot := by
  intro hr
  obtain ⟨hd, hh⟩ := h hr
  refine ⟨hd, ?_⟩
  have hb := backtrack_ge out dotdot (out.length - 1) (by omega)
  cases out with
  | nil => simp at hl
  | cons c rest =>
    obtain ⟨k, hk⟩ : ∃ k, backtrack (c :: rest) dotdot ((c :: rest).length - 1) = k + 1 :=
      ⟨backtrack (c :: rest) dotdot ((c :: rest).length - 1) - 1, by omega⟩
    rw [hk]
    simpa using hh

theorem RootInv_append (rooted : Bool) (out extra : Bytes) (dotdot : Nat)
    (h : RootInv rooted out dotdot) : RootInv rooted (out ++ extra) dotdot := by
  intro hr
  obtain ⟨hd, hh⟩ := h hr
  refine ⟨hd, ?_⟩
  cases out with
  | nil => simp at hh
  | cons c rest => simpa using hh

theorem SepEnd_cons (c : Byte) (p : Bytes) (h : SepEnd (c :: p)) : SepEnd p := by
  rcases h with h | ⟨q, hq⟩
  · cases h
  · cases q with
    | nil =>
      simp only [List.nil_append, List.cons.injEq] at hq
      exact Or.inl hq.2
    | cons d q' =>
      simp only [List.cons_append, List.cons.injEq] at hq
      exact Or.inr ⟨q', hq.2⟩

theorem cleanLoop_succ_cons (rooted : Bool) (fuel : Nat) (c : Byte) (rest1 out : Bytes)
    (dotdot : Nat) :
    cleanLoop rooted (fuel + 1) (c :: rest1) out dotdot =
      if IsPathSeparator c then cleanLoop rooted fuel rest1 out dotdot
      else if c = 46 ∧ (rest1 = [] ∨ IsPathSeparator (rest1.headD 0)) then
        cleanLoop rooted fuel rest1 out dotdot
      else if c = 46 ∧ rest1.head? = some 46 ∧
          (rest1.tail = [] ∨ IsPathSeparator (rest1.tail.headD 0)) then
        if out.length > dotdot then
          cleanLoop rooted fuel rest1.tail
            (out.take (backtrack out dotdot (out.length - 1))) dotdot
        else if !rooted then
          cleanLoop rooted fuel rest1.tail
            ((if out.length > 0 then out ++ [Separator] else out) ++ [46, 46])
            ((if out.length > 0 then out ++ [Separator] else out) ++ [46, 46]).length
        else cleanLoop rooted fuel rest1.tail out dotdot
      else
        cleanLoop rooted fuel ((c :: rest1).dropWhile (fun b => !IsPathSeparator b))
          ((if (rooted ∧ out.length ≠ 1) ∨ (!rooted ∧ out.length ≠ 0) then out ++ [Separator]
            else out) ++ (c :: rest1).takeWhile (fun b => !IsPathSeparator b)) dotdot := rfl

theorem cleanLoop_nil (rooted : Bool) (fuel : Nat) (out : Bytes) (dotdot : Nat) :
    cleanLoop rooted (fuel + 1) [] out dotdot = some out := rfl

/-- The separator that precedes a real element leaves the output empty or
ending with a separator. -/
theorem SepEnd_out1 (rooted : Bool) (out : Bytes) (dotdot : Nat)
    (h : RootInv rooted out dotdot) :
    SepEnd (if (rooted ∧ out.length ≠ 1) ∨ (!rooted ∧ out.length ≠ 0) then out ++ [Separator]
      else out) := by
  by_cases hc : (rooted ∧ out.length ≠ 1) ∨ (!rooted ∧ out.length ≠ 0)
  · rw [if_pos hc]; exact Or.inr ⟨out, rfl⟩
  · rw [if_neg hc]
    cases hr : rooted with
    | false =>
      left
      simp only [hr, Bool.false_eq_true, false_and, Bool.not_false, true_and, false_or, ne_eq,
        Decidable.not_not] at hc
      exact List.length_eq_zero.mp hc
    | true =>
      right
      simp only [hr, true_and, Bool.not_true, Bool.false_eq_true, false_and, or_false, ne_eq,
        Decidable.not_not] at hc
      obtain ⟨-, hh⟩ := h hr
      cases out with
      | nil => simp at hc
      | cons c rest =>
        simp only [List.length_cons, Nat.add_eq_right, List.length_eq_zero] at hc
        subst hc
        simp only [List.head?_cons, Option.some.injEq] at hh
        subst hh
        exact ⟨[], rfl⟩

/-- Main lemma on `filepath.Clean`: when the input ends with a plain element
`name` (no separator inside, not starting with a dot) that follows a part which
is empty or ends with a separator, the loop returns an output that ends with
`name`, itself preceded by nothing or by a separator. -/
theorem cleanLoop_last_element (rooted : Bool) (c0 : Byte) (nrest : Bytes)
    (hns : ∀ b ∈ c0 :: nrest, b ≠ Separator) (hdot : c0 ≠ 46) :
    ∀ (fuel : Nat) (p out : Bytes) (dotdot : Nat), SepEnd p → RootInv rooted out dotdot →
      (p ++ c0 :: nrest).length < fuel →
      ∃ o, cleanLoop rooted fuel (p ++ c0 :: nrest) out dotdot = some (o ++ c0 :: nrest) ∧
        SepEnd o := by
  intro fuel
  induction fuel with
  | zero => intro p out dotdot _ _ hl; omega
  | succ fuel ih =>
    intro p out dotdot hp hinv hl
    cases p with
    | nil =>
      have hc0 : IsPathSeparator c0 = false := by
        simp [IsPathSeparator, hns c0 (List.mem_cons_self _ _)]
      obtain ⟨ht, hd⟩ := takeWhile_no_sep (c0 :: nrest) hns
      rw [List.nil_append, cleanLoop_succ_cons]
      simp only [hc0, Bool.false_eq_true, if_false, hdot, false_and]
      rw [ht, hd]
      obtain ⟨k, rfl⟩ : ∃ k, fuel = k + 1 := ⟨fuel - 1, by simp at hl; omega⟩
      rw [cleanLoop_nil]
      exact ⟨_, rfl, SepEnd_out1 rooted out dotdot hinv⟩
    | cons c p' =>
      have hl' : (p' ++ c0 :: nrest).length < fuel := by
        simp only [List.cons_append, List.length_cons] at hl; omega
      rw [List.cons_append, cleanLoop_succ_cons]
      by_cases hsep : IsPathSeparator c = true
      · rw [if_pos hsep]
        exact ih p' out dotdot (SepEnd_cons c p' hp) hinv hl'
      · rw [if_neg hsep]
        have hcs : c ≠ Separator := by
          intro h; apply hsep; simp [IsPathSeparator, h]
        obtain ⟨hne, hp'⟩ := SepEnd_tail c p' hp hcs
        by_cases h1 : c = 46 ∧ (p' ++ c0 :: nrest = [] ∨
            IsPathSeparator ((p' ++ c0 :: nrest).headD 0))
        · rw [if_pos h1]
          exact ih p' out dotdot hp' hinv hl'
        · rw [if_neg h1]
          by_cases h2 : c = 46 ∧ (p' ++ c0 :: nrest).head? = some 46 ∧
              ((p' ++ c0 :: nrest).tail = [] ∨
                IsPathSeparator ((p' ++ c0 :: nrest).tail.headD 0))
          · rw [if_pos h2]
            obtain ⟨d, p'', rfl⟩ := List.exists_cons_of_ne_nil hne
            have hd : d = 46 := by
              have := h2.2.1
              simpa using this
            have hds : d ≠ Separator := by rw [hd]; decide
            obtain ⟨-, hp''⟩ := SepEnd_tail d p'' hp' hds
            have hl'' : (p'' ++ c0 :: nrest).length < fuel := by
              simp only [List.cons_append, List.length_cons] at hl'; omega
            simp only [List.cons_append, List.tail_cons]
            by_cases hw : out.length > dotdot
            · rw [if_pos hw]
              exact ih p'' _ dotdot hp'' (RootInv_take rooted out dotdot hinv hw) hl''
            · rw [if_neg hw]
              by_cases hr : rooted = true
              · simp only [hr, Bool.not_true, Bool.false_eq_true, if_false]
                rw [hr] at ih hinv
                exact ih p'' out dotdot hp'' hinv hl''
              · have hr' : rooted = false := by simpa using hr
                simp only [hr', Bool.not_false, if_true]
                rw [hr'] at ih
                refine ih p'' _ _ hp'' ?_ hl''
                intro h; cases h
          · rw [if_neg h2]
            rcases hp' with hp0 | ⟨q, hq⟩
            · exact absurd hp0 hne
            · obtain ⟨q', ht, hdw, hlen⟩ := span_sepEnd q (c0 :: nrest)
              have hcf : IsPathSeparator c = false := by simpa using hsep
              have e : p' ++ c0 :: nrest = q ++ [Separator] ++ c0 :: nrest := by
                rw [← hq]
              simp only [List.takeWhile_cons, List.dropWhile_cons, hcf, Bool.not_false, if_true]
              rw [e, ht, hdw]
              have hq' : SepEnd (q' ++ [Separator]) := Or.inr ⟨q', rfl⟩
              have hlq : (q' ++ [Separator] ++ c0 :: nrest).length < fuel := by
                have : p'.length = q.length + 1 := by rw [hq]; simp
                simp only [List.length_append, List.length_cons, List.length_nil] at hl' ⊢
                omega
              obtain ⟨o, ho, hso⟩ := ih (q' ++ [Separator]) _ dotdot hq'
                (RootInv_append rooted _ (c :: q.takeWhile (fun b => !IsPathSeparator b)) dotdot
                  (RootInv_append rooted out
                    (if (rooted ∧ out.length ≠ 1) ∨ (!rooted ∧ out.length ≠ 0) then [Separator]
                      else []) dotdot hinv)) hlq
              refine ⟨o, ?_, hso⟩
              rw [← ho]
              congr 1
              by_cases hc : (rooted ∧ out.length ≠ 1) ∨ (!rooted ∧ out.length ≠ 0)
              · simp only [hc, if_true]
              · simp only [hc, if_false, List.append_nil]

theorem dropWhile_length_le (p : Byte → Bool) (l : Bytes) : (l.dropWhile p).length ≤ l.length := by
  induction l with
  | nil => simp
  | cons c rest ih =>
    rw [List.dropWhile_cons]
    split
    · simp only [List.length_cons]; omega
    · exact Nat.le_refl _

/-- The loop of `filepath.Clean` ends before its fuel does. -/
theorem cleanLoop_total (rooted : Bool) :
    ∀ (fuel : Nat) (rest out : Bytes) (dotdot : Nat), rest.length < fuel →
      cleanLoop rooted fuel rest out dotdot ≠ none := by
  intro fuel
  induction fuel with
  | zero => intro rest out dotdot h; omega
  | succ fuel ih =>
    intro rest out dotdot h
    cases rest with
    | nil => simp [cleanLoop]
    | cons c rest1 =>
      simp only [List.length_cons] at h
      have h1 : rest1.length < fuel := by omega
      have h2 : rest1.tail.length < fuel := by
        simp only [List.length_tail]; omega
      rw [cleanLoop_succ_cons]
      split
      · exact ih _ _ _ h1
      · next hsep =>
        split
        · exact ih _ _ _ h1
        · split
          · split
            · exact ih _ _ _ h2
            · split
              · exact ih _ _ _ h2
              · exact ih _ _ _ h2
          · apply ih
            have hc : IsPathSeparator c = false := by simpa using hsep
            rw [List.dropWhile_cons]
            simp only [hc, Bool.not_false, if_true]
            have := dropWhile_length_le (fun b => !IsPathSeparator b) rest1
            omega

/-- Function `filepath.Clean` always returns a path. -/
theorem Clean_total (path : Bytes) : Clean path ≠ none := by
  unfold Clean
  split
  · simp
  · have key : ∀ (r : Bool) (rest out : Bytes) (d : Nat), rest.length < path.length + 1 →
        (match cleanLoop r (path.length + 1) rest out d with
          | none => none
          | some out => some (if out.length = 0 then [46] else out)) ≠ none := by
      intro r rest out d hl
      cases hc : cleanLoop r (path.length + 1) rest out d with
      | none => exact absurd hc (cleanLoop_total r _ _ _ _ hl)
      | some o => simp
    by_cases hr : IsPathSeparator (path.headD 0) = true
    · simp only [hr, if_true]
      exact key _ _ _ _ (by simp only [List.length_drop]; omega)
    · simp only [hr, if_false]
      exact key _ _ _ _ (Nat.lt_succ_self _)

/-- Function `filepath.Join` always returns a path. -/
theorem Join_total (elems : List Bytes) : Join elems ≠ none := by
  induction elems with
  | nil => simp [Join]
  | cons e es ih =>
    unfold Join
    split
    · exact Clean_total _
    · exact ih

theorem Clean_last_element (p : Bytes) (c0 : Byte) (nrest : Bytes)
    (hns : ∀ b ∈ c0 :: nrest, b ≠ Separator) (hdot : c0 ≠ 46) (hp : SepEnd p) :
    ∃ o, Clean (p ++ c0 :: nrest) = some (o ++ c0 :: nrest) ∧ SepEnd o := by
  have hc0 : IsPathSeparator c0 = false := by
    simp [IsPathSeparator, hns c0 (List.mem_cons_self _ _)]
  have hfin : ∀ o : Bytes, (if (o ++ c0 :: nrest).length = 0 then [46] else o ++ c0 :: nrest) =
      o ++ c0 :: nrest := by
    intro o; rw [if_neg]; simp
  unfold Clean
  rw [if_neg (by simp)]
  cases p with
  | nil =>
    obtain ⟨o, ho, hso⟩ := cleanLoop_last_element false c0 nrest hns hdot
      ((c0 :: nrest).length + 1) [] [] 0 (Or.inl rfl) (by intro h; cases h) (by simp)
    simp only [List.nil_append] at ho ⊢
    simp only [List.headD_cons, hc0, Bool.false_eq_true, if_false, ho, hfin]
    exact ⟨o, rfl, hso⟩
  | cons c p' =>
    by_cases hsep : IsPathSeparator c = true
    · obtain ⟨o, ho, hso⟩ := cleanLoop_last_element true c0 nrest hns hdot
        ((c :: p' ++ c0 :: nrest).length + 1) p' [Separator] 1 (SepEnd_cons c p' hp)
        (by intro _; exact ⟨rfl, rfl⟩) (by simp; omega)
      simp only [List.cons_append, List.headD_cons, hsep, if_true, List.drop_succ_cons,
        List.drop_zero] at ho ⊢
      simp only [ho, hfin]
      exact ⟨o, rfl, hso⟩
    · have hf : IsPathSeparator c = false := by simpa using hsep
      obtain ⟨o, ho, hso⟩ := cleanLoop_last_element false c0 nrest hns hdot
        ((c :: p' ++ c0 :: nrest).length + 1) (c :: p') [] 0 hp (by intro h; cases h) (by simp)
      simp only [List.cons_append, List.headD_cons, hf, Bool.false_eq_true, if_false] at ho ⊢
      simp only [ho, hfin]
      exact ⟨o, rfl, hso⟩

/-- Joining a directory with a plain name gives a path whose last element is
the name. -/
theorem Join_last_element (dir : Bytes) (c0 : Byte) (nrest : Bytes)
    (hns : ∀ b ∈ c0 :: nrest, b ≠ Separator) (hdot : c0 ≠ 46) :
    ∃ o, Join [dir, c0 :: nrest] = some (o ++ c0 :: nrest) ∧ SepEnd o := by
  by_cases hd : dir = []
  · subst hd
    simp only [Join, ne_eq, not_true_eq_false, if_false, List.cons_ne_nil, not_false_eq_true,
      if_true, stringsJoin]
    exact Clean_last_element [] c0 nrest hns hdot (Or.inl rfl)
  · simp only [Join, ne_eq, hd, not_false_eq_true, if_true, stringsJoin]
    exact Clean_last_element (dir ++ [Separator]) c0 nrest hns hdot (Or.inr ⟨dir, rfl⟩)

theorem Split_of_sepEnd (o name : Bytes) (ho : SepEnd o) (hn : ∀ b ∈ name, b ≠ Separator) :
    Split (o ++ name) = (o, name) := by
  rcases ho with rfl | ⟨q, rfl⟩
  · exact Split_no_sep name hn
  · exact Split_after_sep q name hn

theorem parseSegmentID_of_fileName (p : Bytes) (n : Nat) (hs : (Split p).2 = segmentName n)
    (h : n < 2 ^ 63) : parseSegmentID p = ((n : Int), none) := by
  obtain ⟨hne, hall, hval, -, -⟩ := decimal_spec n
  unfold parseSegmentID
  rw [hs]
  unfold segmentName
  rw [TrimPrefix_append,
    Atoi_unsigned _ ((digitsOnly_iff _).mpr ⟨hne, hall⟩) (by rw [hval]; exact h), hval]

theorem sprintfSegment_nonneg (id : Int) (h : 0 ≤ id) :
    sprintfSegment id = segmentName id.toNat := by
  unfold sprintfSegment sprintD segmentName
  rw [if_neg (by omega)]

theorem segmentName_cons (n : Nat) :
    segmentName n = 115 :: ([101, 103, 109, 101, 110, 116, 45] ++ decimal n) := by
  unfold segmentName
  rw [str_segment]
  rfl

/-- C5: for a non-negative `id` in the range of `int` and any directory, the
path `createSegmentFile` builds has the file name `segment-<id>`, whose parse
(strip `segment-`, parse decimal) yields `id`; `findLastSegmentIndexInFiles` on
the list holding just that path returns `id`. -/
theorem createSegmentFile_path_roundtrip (dir : Bytes) (id : Int) (h0 : 0 ≤ id)
    (h1 : id < 2 ^ 63) :
    ∃ p, createSegmentFilePath dir id = some p ∧ (Split p).2 = segmentName id.toNat ∧
      parseSegmentID p = (id, none) ∧ findLastSegmentIndexInFiles [p] = (id, none) := by
  have hns : ∀ b ∈ segmentName id.toNat, b ≠ Separator :=
    segment_no_sep _ (decimal_no_sep _)
  have hcons := segmentName_cons id.toNat
  rw [hcons] at hns
  obtain ⟨o, ho, hso⟩ := Join_last_element dir 115 _ hns (by decide)
  rw [← hcons] at ho hns
  have hsplit : (Split (o ++ segmentName id.toNat)).2 = segmentName id.toNat := by
    rw [Split_of_sepEnd o _ hso hns]
  have hparse : parseSegmentID (o ++ segmentName id.toNat) = (id, none) := by
    rw [parseSegmentID_of_fileName _ id.toNat hsplit (by omega)]
    congr 1
    omega
  refine ⟨o ++ segmentName id.toNat, ?_, hsplit, hparse, ?_⟩
  · unfold createSegmentFilePath
    rw [sprintfSegment_nonneg id h0]
    exact ho
  · unfold findLastSegmentIndexInFiles
    rw [findLastLoop_cons, hparse]
    simp only [findLastLoop]
    by_cases hid : id > 0
    · rw [if_pos hid]
    · rw [if_neg hid]
      have : id = 0 := by omega
      rw [this]

/-- Directory `data/wal/` and segment 17. -/
theorem createSegmentFile_path_roundtrip_witness :
    (0 : Int) ≤ 17 ∧ (17 : Int) < 2 ^ 63 ∧
      ∃ p, createSegmentFilePath (str "data/wal/") 17 = some p ∧
        (Split p).2 = segmentName (17 : Int).toNat ∧
        parseSegmentID p = (17, none) ∧ findLastSegmentIndexInFiles [p] = (17, none) :=
  ⟨by decide, by decide, createSegmentFile_path_roundtrip (str "data/wal/") 17 (by decide) (by decide)⟩

/-! ## protowire: varints -/

theorem varint_byte_val (v : Nat) :
    (Fin.ofNat ((v &&& 0x7f) ||| 0x80) : Byte).val = v % 128 + 128 := by
  have h1 : v &&& 0x7f = v % 128 := Nat.and_pow_two_sub_one_eq_mod v 7
  have h2 : v % 128 < 2 ^ 7 := Nat.mod_lt _ (by decide)
  have h3 := Nat.mul_add_lt_is_or h2 1
  rw [h1, Nat.lor_comm]
  simp only [Fin.ofNat, Fin.val_mk]
  have h4 : (128 : Nat) ||| v % 128 = 128 + v % 128 := by
    simpa using h3.symm
  rw [h4]
  omega

theorem small_byte_val (v : Nat) (h : v < 0x80) : (Fin.ofNat v : Byte).val = v := by
  simp only [Fin.ofNat, Fin.val_mk]
  omega

theorem appendVarintFrom_length_pos (k v : Nat) : 1 ≤ (appendVarintFrom (k + 1) v).length := by
  unfold appendVarintFrom
  split <;> simp

/-- Reading back what `AppendVarint` wrote, from byte index `i` on. -/
theorem consumeVarintFrom_append (k i v : Nat) (rest : Bytes) (hik : i + k = 10) (hk : 1 ≤ k)
    (hv : v < 2 ^ (64 - 7 * i)) :
    consumeVarintFrom i (appendVarintFrom k v ++ rest) =
      some (v <<< (7 * i), i + (appendVarintFrom k v).length) := by
  induction k generalizing i v with
  | zero => omega
  | succ k ih =>
    unfold appendVarintFrom
    by_cases hs : v < 0x80
    · rw [if_pos hs]
      simp only [List.singleton_append, List.length_singleton]
      unfold consumeVarintFrom
      rw [small_byte_val v hs]
      by_cases hi : i < 9
      · rw [if_pos hi, if_pos hs]
      · have hi9 : i = 9 := by omega
        subst hi9
        have hv2 : v < 2 := by simpa using hv
        rw [if_neg hi, if_pos hv2]
    · rw [if_neg hs]
      have hk1 : 1 ≤ k := by
        by_contra hc
        have hk0 : k = 0 := by omega
        subst hk0
        have hi9 : i = 9 := by omega
        subst hi9
        have hv2 : v < 2 := by simpa using hv
        omega
      have hi : i < 9 := by omega
      have hv' : v >>> 7 < 2 ^ (64 - 7 * (i + 1)) := by
        rw [Nat.shiftRight_eq_div_pow]
        have e : 64 - 7 * i = (64 - 7 * (i + 1)) + 7 := by omega
        rw [e, pow_add] at hv
        exact Nat.div_lt_of_lt_mul (by rw [Nat.mul_comm]; exact hv)
      simp only [List.cons_append, List.length_cons]
      unfold consumeVarintFrom
      rw [varint_byte_val, if_pos hi, if_neg (by omega), ih (i + 1) (v >>> 7) (by omega) hk1 hv']
      simp only [Option.some.injEq, Prod.mk.injEq]
      refine ⟨?_, by omega⟩
      have e : 7 * (i + 1) = 7 * i + 7 := by ring
      rw [Nat.shiftLeft_eq, Nat.shiftLeft_eq, Nat.shiftLeft_eq, Nat.shiftRight_eq_div_pow, e,
        pow_add]
      have hsub : v % 128 + 128 - 128 = v % 128 := by omega
      rw [hsub]
      have hdm := Nat.div_add_mod v 128
      generalize 2 ^ (7 * i) = p
      have h128 : (2 : Nat) ^ 7 = 128 := by norm_num
      rw [h128]
      calc v % 128 * p + v / 128 * (p * 128) = (128 * (v / 128) + v % 128) * p := by ring
        _ = v * p := by rw [hdm]

theorem ConsumeVarint_append (v : Nat) (rest : Bytes) (hv : v < 2 ^ 64) :
    ConsumeVarint (AppendVarint v ++ rest) = some (v, (AppendVarint v).length) := by
  have := consumeVarintFrom_append 10 0 v rest rfl (by decide) (by simpa using hv)
  simpa [ConsumeVarint, AppendVarint] using this

theorem AppendVarint_length_pos (v : Nat) : 1 ≤ (AppendVarint v).length :=
  appendVarintFrom_length_pos 9 v

/-- The one- and two-byte shortcuts agree with `ConsumeVarint`. -/
theorem consumeVarintFast_eq (b : Bytes) : consumeVarintFast b = ConsumeVarint b := by
  have one : ∀ (b0 : Byte) (tl : Bytes), b0.val < 0x80 →
      ConsumeVarint (b0 :: tl) = some (b0.val, 1) := by
    intro b0 tl h
    simp [ConsumeVarint, consumeVarintFrom, h]
  cases b with
  | nil => rfl
  | cons b0 tl =>
    cases tl with
    | nil =>
      simp only [consumeVarintFast]
      by_cases h : b0.val < 0x80
      · rw [if_pos h, one b0 [] h]
      · rw [if_neg h]
    | cons b1 tl =>
      simp only [consumeVarintFast]
      by_cases h : b0.val < 0x80
      · rw [if_pos h, one b0 _ h]
      · rw [if_neg h]
        by_cases h1 : b1.val < 128
        · rw [if_pos h1]
          have hb0 : b0.val &&& 0x7f = b0.val - 0x80 := by
            have e : b0.val &&& 0x7f = b0.val % 128 := Nat.and_pow_two_sub_one_eq_mod b0.val 7
            have := b0.isLt
            rw [e]; omega
          simp [ConsumeVarint, consumeVarintFrom, h, h1, hb0]
        · rw [if_neg h1]

theorem consumeVarintFrom_pos (i : Nat) (b : Bytes) (v n : Nat)
    (h : consumeVarintFrom i b = some (v, n)) : 1 ≤ n ∧ b ≠ [] := by
  induction b generalizing i v n with
  | nil => simp [consumeVarintFrom] at h
  | cons y rest ih =>
    refine ⟨?_, by simp⟩
    unfold consumeVarintFrom at h
    split at h
    · split at h
      · simp only [Option.some.injEq, Prod.mk.injEq] at h; omega
      · cases hr : consumeVarintFrom (i + 1) rest with
        | none => rw [hr] at h; cases h
        | some p =>
          obtain ⟨v', n'⟩ := p
          rw [hr] at h
          simp only [Option.some.injEq, Prod.mk.injEq] at h
          have := (ih (i + 1) v' n' hr).1
          omega
    · split at h
      · simp only [Option.some.injEq, Prod.mk.injEq] at h; omega
      · cases h

theorem ConsumeVarint_pos (b : Bytes) (v n : Nat) (h : ConsumeVarint b = some (v, n)) :
    1 ≤ n ∧ b ≠ [] := by
  exact consumeVarintFrom_pos 0 b v n h

/-! ## The decoders always finish -/

theorem ConsumeTag_pos (b : Bytes) (num typ n : Nat) (h : ConsumeTag b = some (num, typ, n)) :
    1 ≤ n ∧ b ≠ [] := by
  unfold ConsumeTag at h
  cases hv : ConsumeVarint b with
  | none => rw [hv] at h; cases h
  | some p =>
    obtain ⟨v, m⟩ := p
    rw [hv] at h
    simp only at h
    split at h
    · cases h
    · split at h
      · cases h
      · simp only [Option.some.injEq, Prod.mk.injEq] at h
        obtain ⟨-, -, rfl⟩ := h
        exact ConsumeVarint_pos b v m hv

theorem groupLoop_total (sub : Nat → Nat → Bytes → Skip)
    (hsub : ∀ a t c, sub a t c ≠ .outOfFuel) (num : Nat) :
    ∀ (fuel : Nat) (b : Bytes) (used : Nat), b.length < fuel →
      groupLoop sub num fuel b used ≠ .outOfFuel := by
  intro fuel
  induction fuel with
  | zero => intro b used h; omega
  | succ fuel ih =>
    intro b used h
    unfold groupLoop
    cases ht : ConsumeTag b with
    | none => simp
    | some p =>
      obtain ⟨num2, typ2, n⟩ := p
      obtain ⟨hn, hb⟩ := ConsumeTag_pos b num2 typ2 n ht
      have hbl : 0 < b.length := List.length_pos.mpr hb
      simp only
      split
      · split <;> simp
      · cases hs : sub num2 typ2 (b.drop n) with
        | len m =>
          simp only
          apply ih
          simp only [List.length_drop]
          omega
        | invalid => simp
        | outOfFuel => exact absurd hs (hsub _ _ _)

theorem consumeFlatValue_total (typ : Nat) (b : Bytes) :
    consumeFlatValue typ b ≠ .outOfFuel := by
  unfold consumeFlatValue
  repeat' split
  all_goals simp

theorem consumeFieldValueD_total (d num typ : Nat) (b : Bytes) :
    consumeFieldValueD d num typ b ≠ .outOfFuel := by
  induction d generalizing num typ b with
  | zero =>
    unfold consumeFieldValueD
    split
    · simp
    · exact consumeFlatValue_total typ b
  | succ d ih =>
    unfold consumeFieldValueD
    split
    · exact groupLoop_total _ (fun a t c => ih a t c) _ _ _ _ (Nat.lt_succ_self _)
    · exact consumeFlatValue_total typ b

theorem unmarshalLoop_total (sch : Schema) :
    ∀ (fuel : Nat) (b : Bytes) (entry : WAL_Entry), b.length < fuel →
      unmarshalLoop sch fuel b entry ≠ .outOfFuel := by
  intro fuel
  induction fuel with
  | zero => intro b entry h; omega
  | succ fuel ih =>
    intro b entry h
    unfold unmarshalLoop
    by_cases hb : b.length = 0
    · rw [if_pos hb]; simp
    · rw [if_neg hb, consumeVarintFast_eq]
      cases hv : ConsumeVarint b with
      | none => simp
      | some p =>
        obtain ⟨tag, n0⟩ := p
        obtain ⟨hn0, -⟩ := ConsumeVarint_pos b tag n0 hv
        have hrec : ∀ (n : Nat) (e : WAL_Entry),
            unmarshalLoop sch fuel ((b.drop n0).drop n) e ≠ .outOfFuel := by
          intro n e
          apply ih
          simp only [List.length_drop]
          omega
        simp only
        split
        · simp
        · split
          · simp
          · split
            · exact hrec _ _
            · simp
            · split
              · simp
              · next hc => exact absurd hc (consumeFieldValueD_total _ _ _ _)
              · exact hrec _ _

/-- The message decoder always finishes: `proto.Unmarshal` yields a message or
the decode error. -/
theorem protoUnmarshal_total (sch : Schema) (b : Bytes) :
    protoUnmarshal sch b ≠ .outOfFuel :=
  unmarshalLoop_total sch _ b _ (Nat.lt_succ_self _)

theorem unmarshalLoop_mono (sch : Schema) :
    ∀ (fuel : Nat) (b : Bytes) (entry : WAL_Entry),
      unmarshalLoop sch fuel b entry ≠ .outOfFuel →
      ∀ fuel', fuel ≤ fuel' →
        unmarshalLoop sch fuel' b entry = unmarshalLoop sch fuel b entry := by
  intro fuel
  induction fuel with
  | zero => intro b entry h; simp [unmarshalLoop] at h
  | succ fuel ih =>
    intro b entry h fuel' hf
    obtain ⟨k, rfl⟩ : ∃ k, fuel' = k + 1 := ⟨fuel' - 1, by omega⟩
    have hk : fuel ≤ k := by omega
    unfold unmarshalLoop at h ⊢
    by_cases hb : b.length = 0
    · rw [if_pos hb]; rw [if_pos hb]
    · rw [if_neg hb] at h ⊢
      rw [if_neg hb]
      cases hv : consumeVarintFast b with
      | none => rfl
      | some p =>
        obtain ⟨tag, n0⟩ := p
        rw [hv] at h
        simp only at h ⊢
        split
        · rfl
        · next hc =>
          rw [if_neg hc] at h
          split
          · rfl
          · next hc2 =>
            rw [if_neg hc2] at h
            split at h
            · exact ih _ _ h _ hk
            · rfl
            · split at h
              · rfl
              · rfl
              · exact ih _ _ h _ hk

/-! ## Decoding what the encoder wrote -/

theorem EncodeTag_spec (num typ : Nat) (hn : num ≤ MaxValidNumber) (ht : typ ≤ 7) :
    EncodeTag num typ < 2 ^ 64 ∧ EncodeTag num typ >>> 3 = num ∧
      EncodeTag num typ &&& 7 = typ := by
  have h7 : ∀ x : Nat, x &&& 7 = x % 8 := fun x => Nat.and_pow_two_sub_one_eq_mod x 3
  have hor : EncodeTag num typ = 8 * num + typ := by
    unfold EncodeTag
    rw [h7, Nat.mod_eq_of_lt (by omega), Nat.shiftLeft_eq]
    have := Nat.mul_add_lt_is_or (show typ < 2 ^ 3 by omega) num
    rw [Nat.mul_comm num (2 ^ 3)]
    exact this.symm
  unfold MaxValidNumber at hn
  rw [hor, h7, Nat.shiftRight_eq_div_pow]
  refine ⟨by omega, by omega, by omega⟩

theorem Fin_ofNat_val {n : Nat} (x : Fin (n + 1)) : (Fin.ofNat x.val : Fin (n + 1)) = x := by
  apply Fin.ext
  simp only [Fin.ofNat, Fin.val_mk]
  exact Nat.mod_eq_of_lt x.isLt

/-- One round of the decoder on a field the encoder wrote: after the tag of a
known field whose decoder accepts `body`, the loop goes on after `body`. -/
theorem unmarshalLoop_field (sch : Schema) (fuel num typ : Nat) (body rest : Bytes)
    (entry entry1 : WAL_Entry) (hn1 : 1 ≤ num) (hn : num ≤ MaxValidNumber) (ht : typ ≤ 7)
    (ht4 : typ ≠ EndGroupType)
    (hout : (if num = sch.lsn then consumeUint64 (body ++ rest) entry typ
      else if num = sch.data then consumeBytesNoZero (body ++ rest) entry typ
      else if num = sch.crc then consumeUint32 (body ++ rest) entry typ
      else .errUnknown) = .ok entry1 body.length) :
    unmarshalLoop sch (fuel + 1) (AppendVarint (EncodeTag num typ) ++ (body ++ rest)) entry =
      unmarshalLoop sch fuel rest entry1 := by
  obtain ⟨h64, hnum, htyp⟩ := EncodeTag_spec num typ hn ht
  have hpos := AppendVarint_length_pos (EncodeTag num typ)
  conv_lhs => unfold unmarshalLoop
  rw [if_neg (by simp only [List.length_append]; omega), consumeVarintFast_eq,
    ConsumeVarint_append _ _ h64]
  simp only [List.drop_left, hnum, htyp]
  rw [if_neg (by unfold MinValidNumber; omega), if_neg ht4, hout]
  simp only [List.drop_left]

theorem consume_uint_body (v : Nat) (rest : Bytes) (hv : v < 2 ^ 64) :
    consumeVarintFast (AppendVarint v ++ rest) = some (v, (AppendVarint v).length) := by
  rw [consumeVarintFast_eq, ConsumeVarint_append v rest hv]

theorem ConsumeBytes_append (v rest : Bytes) (hv : v.length < 2 ^ 64) :
    ConsumeBytes ((AppendVarint v.length ++ v) ++ rest) =
      some (v, (AppendVarint v.length ++ v).length) := by
  unfold ConsumeBytes
  rw [List.append_assoc, ConsumeVarint_append _ _ hv]
  simp only [List.drop_left, List.length_append, List.take_left]
  rw [if_neg (by omega)]

theorem Decodes_nil (sch : Schema) (entry : WAL_Entry) : Decodes sch [] entry entry :=
  ⟨1, rfl⟩

theorem Decodes_lsn (sch : Schema) (hs : sch.valid) (v : Uint64) (rest : Bytes)
    (entry r : WAL_Entry) (h0 : v.val = 0 → entry.LogSequenceNumber = v)
    (h : Decodes sch rest { entry with LogSequenceNumber := v } r) :
    Decodes sch (appendUintNoZero sch.lsn v.val ++ rest) entry r := by
  obtain ⟨fuel, hf⟩ := h
  unfold appendUintNoZero
  by_cases hv : v.val = 0
  · rw [if_pos hv, List.nil_append]
    have : { entry with LogSequenceNumber := v } = entry := by rw [← h0 hv]
    rw [this] at hf
    exact ⟨fuel, hf⟩
  · rw [if_neg hv, List.append_assoc]
    obtain ⟨⟨h1, h2⟩, -⟩ := hs
    refine ⟨fuel + 1, ?_⟩
    rw [unmarshalLoop_field sch fuel sch.lsn VarintType _ rest entry
      { entry with LogSequenceNumber := v } h1 h2 (by decide) (by decide)]
    · exact hf
    · rw [if_pos rfl]
      unfold consumeUint64
      rw [if_neg (by simp), consume_uint_body _ _ v.isLt]
      simp only [Fin_ofNat_val]

theorem Decodes_crc (sch : Schema) (hs : sch.valid) (v : Uint32) (rest : Bytes)
    (entry r : WAL_Entry) (h0 : v.val = 0 → entry.CRC = v)
    (h : Decodes sch rest { entry with CRC := v } r) :
    Decodes sch (appendUintNoZero sch.crc v.val ++ rest) entry r := by
  obtain ⟨fuel, hf⟩ := h
  unfold appendUintNoZero
  by_cases hv : v.val = 0
  · rw [if_pos hv, List.nil_append]
    have : { entry with CRC := v } = entry := by rw [← h0 hv]
    rw [this] at hf
    exact ⟨fuel, hf⟩
  · rw [if_neg hv, List.append_assoc]
    obtain ⟨-, -, ⟨h1, h2⟩, -, h3, h4⟩ := hs
    refine ⟨fuel + 1, ?_⟩
    rw [unmarshalLoop_field sch fuel sch.crc VarintType _ rest entry
      { entry with CRC := v } h1 h2 (by decide) (by decide)]
    · exact hf
    · rw [if_neg (Ne.symm h3), if_neg (Ne.symm h4), if_pos rfl]
      unfold consumeUint32
      have hlt : v.val < 2 ^ 64 := Nat.lt_trans v.isLt (by decide)
      rw [if_neg (by simp), consume_uint_body _ _ hlt]
      simp only [Fin_ofNat_val]

theorem Decodes_data (sch : Schema) (hs : sch.valid) (v rest : Bytes)
    (entry r : WAL_Entry) (hl : v.length < 2 ^ 64) (h0 : v = [] → entry.Data = v)
    (h : Decodes sch rest { entry with Data := v } r) :
    Decodes sch (appendBytesNoZero sch.data v ++ rest) entry r := by
  obtain ⟨fuel, hf⟩ := h
  unfold appendBytesNoZero
  by_cases hv : v.length = 0
  · rw [if_pos hv, List.nil_append]
    have : { entry with Data := v } = entry := by rw [← h0 (List.length_eq_zero.mp hv)]
    rw [this] at hf
    exact ⟨fuel, hf⟩
  · rw [if_neg hv, List.append_assoc]
    obtain ⟨-, ⟨h1, h2⟩, -, h3, -, -⟩ := hs
    refine ⟨fuel + 1, ?_⟩
    rw [unmarshalLoop_field sch fuel sch.data BytesType _ rest entry
      { entry with Data := v } h1 h2 (by decide) (by decide)]
    · exact hf
    · rw [if_neg (Ne.symm h3), if_pos rfl]
      unfold consumeBytesNoZero
      rw [if_neg (by simp), ConsumeBytes_append _ _ hl]

theorem Decodes_append_nil (sch : Schema) (b : Bytes) (entry r : WAL_Entry)
    (h : Decodes sch (b ++ []) entry r) : Decodes sch b entry r := by
  simpa using h

/-- A decoding found with some fuel is the result of `proto.Unmarshal`. -/
theorem protoUnmarshal_of_Decodes (sch : Schema) (b : Bytes) (r : WAL_Entry)
    (h : Decodes sch b WAL_Entry.zero r) : protoUnmarshal sch b = .msg r := by
  obtain ⟨fuel, hf⟩ := h
  unfold protoUnmarshal
  have h1 := unmarshalLoop_mono sch fuel b WAL_Entry.zero (by rw [hf]; simp)
    (max fuel (b.length + 1)) (le_max_left _ _)
  have h2 := unmarshalLoop_mono sch (b.length + 1) b WAL_Entry.zero
    (unmarshalLoop_total sch _ b _ (Nat.lt_succ_self _))
    (max fuel (b.length + 1)) (le_max_right _ _)
  rw [← h2, h1, hf]

theorem protoMarshal_decodes (sch : Schema) (hs : sch.valid) (lsn : Uint64) (data : Bytes)
    (crc : Uint32) (hl : data.length < 2 ^ 63) :
    Decodes sch (protoMarshal sch ⟨lsn, data, crc, []⟩) WAL_Entry.zero ⟨lsn, data, crc, []⟩ := by
  have hl' : data.length < 2 ^ 64 := Nat.lt_trans hl (by decide)
  unfold protoMarshal
  by_cases h1 : sch.data ≤ sch.crc <;> by_cases h2 : sch.lsn ≤ sch.data <;>
    by_cases h3 : sch.lsn ≤ sch.crc <;>
    simp only [List.insertionSort, List.orderedInsert, h1, h2, h3, if_true, if_false, List.map,
      List.flatten, List.append_nil] <;>
    apply Decodes_append_nil <;>
    simp only [List.append_assoc] <;>
    (first
      | (apply Decodes_lsn sch hs lsn _ _ _ (fun h => (Fin.ext h).symm)
         first
          | (apply Decodes_data sch hs data _ _ _ hl' (fun h => h.symm ▸ rfl)
             apply Decodes_crc sch hs crc _ _ _ (fun h => (Fin.ext h).symm))
          | (apply Decodes_crc sch hs crc _ _ _ (fun h => (Fin.ext h).symm)
             apply Decodes_data sch hs data _ _ _ hl' (fun h => h.symm ▸ rfl)))
      | (apply Decodes_data sch hs data _ _ _ hl' (fun h => h.symm ▸ rfl)
         first
          | (apply Decodes_lsn sch hs lsn _ _ _ (fun h => (Fin.ext h).symm)
             apply Decodes_crc sch hs crc _ _ _ (fun h => (Fin.ext h).symm))
          | (apply Decodes_crc sch hs crc _ _ _ (fun h => (Fin.ext h).symm)
             apply Decodes_lsn sch hs lsn _ _ _ (fun h => (Fin.ext h).symm)))
      | (apply Decodes_crc sch hs crc _ _ _ (fun h => (Fin.ext h).symm)
         first
          | (apply Decodes_lsn sch hs lsn _ _ _ (fun h => (Fin.ext h).symm)
             apply Decodes_data sch hs data _ _ _ hl' (fun h => h.symm ▸ rfl))
          | (apply Decodes_data sch hs data _ _ _ hl' (fun h => h.symm ▸ rfl)
             apply Decodes_lsn sch hs lsn _ _ _ (fun h => (Fin.ext h).symm)))) <;>
    exact Decodes_nil sch _

/-! ## Entries: encode, decode, verify -/

/-- The model of `unmarshalAndVerifyEntry` never runs out of fuel: the call
returns or panics. -/
theorem unmarshalAndVerifyEntry_total (sch : Schema) (data : Bytes) :
    unmarshalAndVerifyEntry sch data ≠ .outOfFuel := by
  have ht := protoUnmarshal_total sch data
  unfold unmarshalAndVerifyEntry MustUnmarshal
  cases h : protoUnmarshal sch data with
  | msg e => simp only; split <;> simp
  | errDecode => simp
  | outOfFuel => exact absurd h ht

/-- C6: for every record of three fields, `MustUnmarshal` of the bytes that
`MustMarshal` produced returns a record equal to the original in payload,
sequence number and checksum (for any valid numbering of the fields; a Go slice
is shorter than `2^63`). -/
theorem MustUnmarshal_MustMarshal (sch : Schema) (hs : sch.valid) (lsn : Uint64)
    (payload : Bytes) (crc : Uint32) (hl : payload.length < 2 ^ 63) :
    ∃ e, MustUnmarshal sch (MustMarshal sch ⟨lsn, payload, crc, []⟩) = .ret e ∧
      e.Data = payload ∧ e.LogSequenceNumber = lsn ∧ e.CRC = crc ∧
      e = ⟨lsn, payload, crc, []⟩ := by
  refine ⟨⟨lsn, payload, crc, []⟩, ?_, rfl, rfl, rfl, rfl⟩
  unfold MustUnmarshal MustMarshal
  rw [protoUnmarshal_of_Decodes sch _ _ (protoMarshal_decodes sch hs lsn payload crc hl)]

/-- The field numbers 1, 2, 3 and the record `(300, "payload", 77)`. -/
theorem MustUnmarshal_MustMarshal_witness :
    (⟨1, 2, 3⟩ : Schema).valid ∧ (str "payload").length < 2 ^ 63 ∧
      ∃ e, MustUnmarshal ⟨1, 2, 3⟩ (MustMarshal ⟨1, 2, 3⟩ ⟨300, str "payload", 77, []⟩) = .ret e ∧
        e.Data = str "payload" ∧ e.LogSequenceNumber = 300 ∧ e.CRC = 77 ∧
        e = ⟨300, str "payload", 77, []⟩ :=
  ⟨by decide, by decide,
    MustUnmarshal_MustMarshal ⟨1, 2, 3⟩ (by decide) 300 (str "payload") 77 (by decide)⟩

/-- C2: when the buffer decodes to the record `r`, `unmarshalAndVerifyEntry`
returns no record and the CRC-mismatch error if `verifyCRC r` is false, and `r`
with no error if it is true; so every record it returns is the decoded one,
carries the recomputed checksum and comes with no error, and every error it
returns is the CRC mismatch and comes with no record. -/
theorem unmarshalAndVerifyEntry_spec (sch : Schema) (data : Bytes) :
    (∀ r, protoUnmarshal sch data = .msg r →
      (verifyCRC r = false →
        unmarshalAndVerifyEntry sch data = .ret (none, some crcMismatch)) ∧
      (verifyCRC r = true → unmarshalAndVerifyEntry sch data = .ret (some r, none))) ∧
    (∀ e err, unmarshalAndVerifyEntry sch data = .ret (some e, err) →
      protoUnmarshal sch data = .msg e ∧ err = none ∧
        e.CRC.val = ChecksumIEEE (e.Data ++ [byteOfUint64 e.LogSequenceNumber])) ∧
    (∀ e err, unmarshalAndVerifyEntry sch data = .ret (e, some err) →
      err = crcMismatch ∧ e = none) := by
  have hu : ∀ r, protoUnmarshal sch data = .msg r → unmarshalAndVerifyEntry sch data =
      if !verifyCRC r then .ret (none, some crcMismatch) else .ret (some r, none) := by
    intro r h
    unfold unmarshalAndVerifyEntry MustUnmarshal
    rw [h]
  have hret : ∀ p, unmarshalAndVerifyEntry sch data = .ret p →
      ∃ r, protoUnmarshal sch data = .msg r := by
    intro p hp
    unfold unmarshalAndVerifyEntry MustUnmarshal at hp
    cases h : protoUnmarshal sch data with
    | msg r => exact ⟨r, rfl⟩
    | errDecode => rw [h] at hp; cases hp
    | outOfFuel => rw [h] at hp; cases hp
  refine ⟨?_, ?_, ?_⟩
  · intro r h
    constructor
    · intro hv; rw [hu r h, hv]; rfl
    · intro hv; rw [hu r h, hv]; rfl
  · intro e err he
    obtain ⟨r, h⟩ := hret _ he
    rw [hu r h] at he
    cases hv : verifyCRC r with
    | false => rw [hv] at he; simp at he
    | true =>
      rw [hv] at he
      simp only [Bool.not_true, Bool.false_eq_true, if_false, Outcome.ret.injEq, Prod.mk.injEq,
        Option.some.injEq] at he
      obtain ⟨h1, h2⟩ := he
      subst h1
      refine ⟨h, h2.symm, ?_⟩
      simpa [verifyCRC] using hv
  · intro e err he
    obtain ⟨r, h⟩ := hret _ he
    rw [hu r h] at he
    cases hv : verifyCRC r with
    | false =>
      rw [hv] at he
      simp only [Bool.not_false, if_true, Outcome.ret.injEq, Prod.mk.injEq,
        Option.some.injEq] at he
      exact ⟨he.2.symm, he.1.symm⟩
    | true => rw [hv] at he; simp at he

/-- The encoding of the record `(1, "a", crc)` decodes to it and is returned. -/
theorem unmarshalAndVerifyEntry_spec_witness :
    protoUnmarshal ⟨1, 2, 3⟩ [8, 1, 18, 1, 97, 24, 143, 241, 225, 209, 4] =
        .msg ⟨1, str "a", 1245214863, []⟩ ∧
      verifyCRC ⟨1, str "a", 1245214863, []⟩ = true ∧
      unmarshalAndVerifyEntry ⟨1, 2, 3⟩ [8, 1, 18, 1, 97, 24, 143, 241, 225, 209, 4] =
        .ret (some ⟨1, str "a", 1245214863, []⟩, none) :=
  ⟨by decide!, by decide!,
    ((unmarshalAndVerifyEntry_spec ⟨1, 2, 3⟩ [8, 1, 18, 1, 97, 24, 143, 241, 225, 209, 4]).1
      ⟨1, str "a", 1245214863, []⟩ (by decide!)).2 (by decide!)⟩

/-! ## The sequence number in the checksum -/

theorem byteOfUint64_eq_iff (s₁ s₂ : Uint64) :
    byteOfUint64 s₁ = byteOfUint64 s₂ ↔ s₁.val % 256 = s₂.val % 256 := by
  unfold byteOfUint64
  constructor
  · intro h; exact congrArg Fin.val h
  · intro h; exact Fin.ext h

/-- C12: two sequence numbers with the same low-order 8 bits get the same
verdict from `verifyCRC` for every payload and checksum, since the checksum they
are compared with is the same. -/
theorem verifyCRC_low_byte_only (payload : Bytes) (c : Uint32) (u : Bytes) (s₁ s₂ : Uint64)
    (h : s₁.val % 256 = s₂.val % 256) :
    verifyCRC ⟨s₁, payload, c, u⟩ = verifyCRC ⟨s₂, payload, c, u⟩ ∧
      ChecksumIEEE (payload ++ [byteOfUint64 s₁]) =
        ChecksumIEEE (payload ++ [byteOfUint64 s₂]) := by
  have hb := (byteOfUint64_eq_iff s₁ s₂).mpr h
  unfold verifyCRC
  simp only [hb, and_self]

/-- The sequence numbers 1 and 257 are interchangeable. -/
theorem verifyCRC_low_byte_only_witness :
    (1 : Uint64).val % 256 = (257 : Uint64).val % 256 ∧
      verifyCRC ⟨1, str "a", 1245214863, []⟩ = verifyCRC ⟨257, str "a", 1245214863, []⟩ ∧
      ChecksumIEEE (str "a" ++ [byteOfUint64 1]) = ChecksumIEEE (str "a" ++ [byteOfUint64 257]) :=
  ⟨by decide, verifyCRC_low_byte_only (str "a") 1245214863 [] 1 257 (by decide)⟩

/-- C18: `verifyCRC` rejects the all-default record, because the CRC-32 of the
single byte 0 is `0xD202EF8D` and not 0; so a buffer that decodes to the default
record, such as the empty buffer, makes `unmarshalAndVerifyEntry` return the
CRC-mismatch error and no record. -/
theorem default_record_rejected (sch : Schema) :
    ChecksumIEEE [0] = 0xD202EF8D ∧ verifyCRC ⟨0, [], 0, []⟩ = false ∧
      (∀ data, protoUnmarshal sch data = .msg ⟨0, [], 0, []⟩ →
        unmarshalAndVerifyEntry sch data = .ret (none, some crcMismatch)) ∧
      protoUnmarshal sch [] = .msg ⟨0, [], 0, []⟩ ∧
      unmarshalAndVerifyEntry sch [] = .ret (none, some crcMismatch) := by
  have hc : ChecksumIEEE [0] = 0xD202EF8D := by decide!
  have hv : verifyCRC ⟨0, [], 0, []⟩ = false := by decide!
  have hd : ∀ data, protoUnmarshal sch data = .msg ⟨0, [], 0, []⟩ →
      unmarshalAndVerifyEntry sch data = .ret (none, some crcMismatch) := by
    intro data h
    unfold unmarshalAndVerifyEntry MustUnmarshal
    rw [h]
    simp only [hv]
    rfl
  exact ⟨hc, hv, hd, rfl, hd [] rfl⟩

/-! ## The result of the scan as a maximum -/

theorem findLast_ok_iff (files : List Bytes) :
    (findLastSegmentIndexInFiles files).2 = none ↔
      ∀ f ∈ files, (parseSegmentID f).2 = none := by
  constructor
  · intro h f hf
    by_contra hc
    exact (findLastLoop_fails files 0 f hf hc).2 h
  · intro h
    unfold findLastSegmentIndexInFiles
    rw [findLastLoop_ok files 0 h]

theorem findLast_eq_foldl (files : List Bytes)
    (h : ∀ f ∈ files, (parseSegmentID f).2 = none) :
    findLastSegmentIndexInFiles files =
      ((files.map (fun f => (parseSegmentID f).1)).foldl max 0, none) := by
  unfold findLastSegmentIndexInFiles
  rw [findLastLoop_ok files 0 h, List.foldl_map]

theorem foldl_max_int_spec (l : List Int) (a : Int) :
    (l.foldl max a = a ∨ l.foldl max a ∈ l) ∧ a ≤ l.foldl max a ∧
      ∀ x ∈ l, x ≤ l.foldl max a := by
  induction l generalizing a with
  | nil => simp
  | cons x rest ih =>
    obtain ⟨h1, h2, h3⟩ := ih (max a x)
    simp only [List.foldl_cons, List.mem_cons]
    refine ⟨?_, ?_, ?_⟩
    · rcases h1 with h1 | h1
      · rcases le_total a x with hax | hax
        · right; left; rw [h1]; exact max_eq_right hax
        · left; rw [h1]; exact max_eq_left hax
      · right; right; exact h1
    · exact le_trans (le_max_left a x) h2
    · intro n hn
      rcases hn with hn | hn
      · subst hn; exact le_trans (le_max_right a n) h2
      · exact h3 n hn

theorem foldl_max_int_init (l : List Int) (a : Int) (ha : 0 ≤ a) :
    l.foldl max a = max a (l.foldl max 0) := by
  induction l generalizing a with
  | nil => simp [ha]
  | cons x rest ih =>
    simp only [List.foldl_cons]
    rw [ih (max a x) (le_trans ha (le_max_left a x)), ih (max 0 x) (le_max_left 0 x)]
    have h0 := (foldl_max_int_spec rest 0).2.1
    generalize List.foldl max 0 rest = F at h0 ⊢
    simp only [max_def]
    split_ifs <;> omega

theorem foldl_max_int_append (l₁ l₂ : List Int) :
    (l₁ ++ l₂).foldl max 0 = max (l₁.foldl max 0) (l₂.foldl max 0) := by
  rw [List.foldl_append, foldl_max_int_init l₂ _ (foldl_max_int_spec l₁ 0).2.1]

/-- C15: when every parse succeeds, `findLastSegmentIndexInFiles` returns no
error and the maximum of 0 and the parsed integers: the id is non-negative, at
least every parsed integer, and is 0 or one of them. -/
theorem findLast_clamped_max (files : List Bytes)
    (h : ∀ f ∈ files, (parseSegmentID f).2 = none) :
    ∃ m, findLastSegmentIndexInFiles files = (m, none) ∧
      m = (files.map (fun f => (parseSegmentID f).1)).foldl max 0 ∧ 0 ≤ m ∧
      (∀ f ∈ files, (parseSegmentID f).1 ≤ m) ∧
      (m = 0 ∨ ∃ f ∈ files, (parseSegmentID f).1 = m) := by
  obtain ⟨h1, h2, h3⟩ := foldl_max_int_spec (files.map (fun f => (parseSegmentID f).1)) 0
  refine ⟨_, findLast_eq_foldl files h, rfl, h2, ?_, ?_⟩
  · intro f hf
    exact h3 _ (List.mem_map.mpr ⟨f, hf, rfl⟩)
  · rcases h1 with h1 | h1
    · left; exact h1
    · right
      obtain ⟨f, hf, he⟩ := List.mem_map.mp h1
      exact ⟨f, hf, he⟩

/-- The name `segment--5` parses to -5, and the scan of the list holding it
returns 0. -/
theorem findLast_clamped_max_witness :
    (∀ f ∈ [str "segment--5"], (parseSegmentID f).2 = none) ∧
      parseSegmentID (str "segment--5") = (-5, none) ∧
      findLastSegmentIndexInFiles [str "segment--5"] = (0, none) ∧
      ∃ m, findLastSegmentIndexInFiles [str "segment--5"] = (m, none) ∧
        m = ([str "segment--5"].map (fun f => (parseSegmentID f).1)).foldl max 0 ∧ 0 ≤ m ∧
        (∀ f ∈ [str "segment--5"], (parseSegmentID f).1 ≤ m) ∧
        (m = 0 ∨ ∃ f ∈ [str "segment--5"], (parseSegmentID f).1 = m) :=
  ⟨by decide, by decide, by decide, findLast_clamped_max [str "segment--5"] (by decide)⟩

/-- C16: when `findLastSegmentIndexInFiles` succeeds on `xs` and on `ys`, it
succeeds on `xs ++ ys` and returns the larger of the two results; the result on
any reordering of `xs` is the result on `xs`, and adding `ys` never lowers it. -/
theorem findLast_append (xs ys : List Bytes)
    (hx : (findLastSegmentIndexInFiles xs).2 = none)
    (hy : (findLastSegmentIndexInFiles ys).2 = none) :
    findLastSegmentIndexInFiles (xs ++ ys) =
        (max (findLastSegmentIndexInFiles xs).1 (findLastSegmentIndexInFiles ys).1, none) ∧
      (∀ zs : List Bytes, zs.Perm xs →
        findLastSegmentIndexInFiles zs = findLastSegmentIndexInFiles xs) ∧
      findLastSegmentIndexInFiles (ys ++ xs) = findLastSegmentIndexInFiles (xs ++ ys) ∧
      (findLastSegmentIndexInFiles xs).1 ≤ (findLastSegmentIndexInFiles (xs ++ ys)).1 := by
  have hxs := (findLast_ok_iff xs).mp hx
  have hys := (findLast_ok_iff ys).mp hy
  have hall : ∀ f ∈ xs ++ ys, (parseSegmentID f).2 = none := by
    intro f hf
    rcases List.mem_append.mp hf with h | h
    · exact hxs f h
    · exact hys f h
  have hall' : ∀ f ∈ ys ++ xs, (parseSegmentID f).2 = none := by
    intro f hf
    rcases List.mem_append.mp hf with h | h
    · exact hys f h
    · exact hxs f h
  have happ : findLastSegmentIndexInFiles (xs ++ ys) =
      (max (findLastSegmentIndexInFiles xs).1 (findLastSegmentIndexInFiles ys).1, none) := by
    rw [findLast_eq_foldl _ hall, findLast_eq_foldl _ hxs, findLast_eq_foldl _ hys,
      List.map_append, foldl_max_int_append]
  refine ⟨happ, ?_, ?_, ?_⟩
  · intro zs hp
    have hzs : ∀ f ∈ zs, (parseSegmentID f).2 = none := fun f hf => hxs f (hp.mem_iff.mp hf)
    rw [findLast_eq_foldl _ hzs, findLast_eq_foldl _ hxs]
    congr 1
    apply List.Perm.foldl_eq' (hp.map _)
    intro x _ y _ z
    simp only [max_def]
    split_ifs <;> omega
  · rw [happ, findLast_eq_foldl _ hall', findLast_eq_foldl _ hxs, findLast_eq_foldl _ hys,
      List.map_append, foldl_max_int_append, max_comm]
  · rw [happ]
    exact le_max_left _ _

/-- The lists `segment-3`, `segment-1` and `segment-7`. -/
theorem findLast_append_witness :
    (findLastSegmentIndexInFiles [str "segment-3", str "segment-1"]).2 = none ∧
      (findLastSegmentIndexInFiles [str "segment-7"]).2 = none ∧
      findLastSegmentIndexInFiles ([str "segment-3", str "segment-1"] ++ [str "segment-7"]) =
        (max (findLastSegmentIndexInFiles [str "segment-3", str "segment-1"]).1
          (findLastSegmentIndexInFiles [str "segment-7"]).1, none) ∧
      findLastSegmentIndexInFiles ([str "segment-3", str "segment-1"] ++ [str "segment-7"]) =
        (7, none) :=
  ⟨by decide, by decide,
    (findLast_append [str "segment-3", str "segment-1"] [str "segment-7"]
      (by decide) (by decide)).1, by decide⟩

/-! ## The scan reads the final path component only -/

/-- Every path is a part that is empty or ends with a separator, followed by a
part without separator. -/
theorem path_decompose (p : Bytes) :
    ∃ o name, p = o ++ name ∧ SepEnd o ∧ ∀ b ∈ name, b ≠ Separator := by
  induction p with
  | nil => exact ⟨[], [], rfl, Or.inl rfl, by simp⟩
  | cons c rest ih =>
    obtain ⟨o, name, hp, ho, hn⟩ := ih
    rcases ho with rfl | ⟨q, rfl⟩
    · by_cases hc : c = Separator
      · exact ⟨[c], name, by rw [hp]; rfl, Or.inr ⟨[], by rw [hc]; rfl⟩, hn⟩
      · refine ⟨[], c :: name, by rw [hp]; rfl, Or.inl rfl, ?_⟩
        intro b hb
        rcases List.mem_cons.mp hb with h | h
        · rw [h]; exact hc
        · exact hn b h
    · exact ⟨c :: (q ++ [Separator]), name, by rw [hp]; rfl, Or.inr ⟨c :: q, rfl⟩, hn⟩

theorem Split_spec (p : Bytes) :
    p = (Split p).1 ++ (Split p).2 ∧ SepEnd (Split p).1 ∧ ∀ b ∈ (Split p).2, b ≠ Separator := by
  obtain ⟨o, name, hp, ho, hn⟩ := path_decompose p
  rw [hp, Split_of_sepEnd o name ho hn]
  exact ⟨rfl, ho, hn⟩

/-- The file name of a file name is itself. -/
theorem Split_fileName (p : Bytes) : (Split (Split p).2).2 = (Split p).2 := by
  rw [Split_no_sep _ (Split_spec p).2.2]

theorem SepEnd_append (d o : Bytes) (h : SepEnd o) : SepEnd (d ++ [Separator] ++ o) := by
  rcases h with rfl | ⟨q, rfl⟩
  · exact Or.inr ⟨d, by simp⟩
  · exact Or.inr ⟨d ++ [Separator] ++ q, by simp⟩

/-- Putting a directory and a separator in front of a path keeps its file name. -/
theorem Split_prefixed (dir p : Bytes) : (Split (dir ++ Separator :: p)).2 = (Split p).2 := by
  obtain ⟨o, name, hp, ho, hn⟩ := path_decompose p
  have e : dir ++ Separator :: p = (dir ++ [Separator] ++ o) ++ name := by
    rw [hp]; simp
  rw [e, Split_of_sepEnd _ name (SepEnd_append dir o ho) hn, hp, Split_of_sepEnd o name ho hn]

theorem parseSegmentID_congr (a b : Bytes) (h : (Split a).2 = (Split b).2) :
    parseSegmentID a = parseSegmentID b := by
  unfold parseSegmentID
  rw [h]

theorem findLastLoop_congr (xs ys : List Bytes) (last : Int)
    (h : List.Forall₂ (fun a b => (Split a).2 = (Split b).2) xs ys) :
    findLastLoop xs last = findLastLoop ys last := by
  induction h generalizing last with
  | nil => rfl
  | cons hab _ ih =>
    rw [findLastLoop_cons, findLastLoop_cons, parseSegmentID_congr _ _ hab]
    split
    · rfl
    · exact ih _

theorem forall₂_map_left (g : Bytes → Bytes) (files : List Bytes)
    (hg : ∀ f, (Split (g f)).2 = (Split f).2) :
    List.Forall₂ (fun a b => (Split a).2 = (Split b).2) (files.map g) files := by
  induction files with
  | nil => exact List.Forall₂.nil
  | cons f rest ih => exact List.Forall₂.cons (hg f) ih

/-- C17: `findLastSegmentIndexInFiles` depends only on the final path component
of each entry: two lists whose entries have pairwise the same file name give the
same result (id and error); so replacing each path by its file name, or putting
any directory and a separator in front of each path, changes nothing. -/
theorem findLast_reads_file_names (files : List Bytes) :
    (∀ others : List Bytes,
      List.Forall₂ (fun a b => (Split a).2 = (Split b).2) others files →
        findLastSegmentIndexInFiles others = findLastSegmentIndexInFiles files) ∧
    findLastSegmentIndexInFiles (files.map (fun f => (Split f).2)) =
      findLastSegmentIndexInFiles files ∧
    (∀ dir : Bytes, findLastSegmentIndexInFiles (files.map (fun f => dir ++ Separator :: f)) =
      findLastSegmentIndexInFiles files) ∧
    (∀ dirOf : Bytes → Bytes,
      findLastSegmentIndexInFiles (files.map (fun f => dirOf f ++ Separator :: f)) =
        findLastSegmentIndexInFiles files) := by
  refine ⟨?_, ?_, ?_, ?_⟩
  · intro others h
    exact findLastLoop_congr others files 0 h
  · exact findLastLoop_congr _ files 0 (forall₂_map_left _ files (fun f => Split_fileName f))
  · intro dir
    exact findLastLoop_congr _ files 0
      (forall₂_map_left _ files (fun f => Split_prefixed dir f))
  · intro dirOf
    exact findLastLoop_congr _ files 0
      (forall₂_map_left _ files (fun f => Split_prefixed (dirOf f) f))

/-! ## The path of a new segment file -/

/-- C13: for every directory and every non-negative id, the path at which
`createSegmentFile` creates the file is `filepath.Join` of the directory and
the name `segment-` followed by the unpadded decimal digits of the id; the path
always exists, it is what `os.Create` receives, and it ends with that name (for
the directory `dir`, the ids 5 and 0 give `dir/segment-5` and `dir/segment-0`). -/
theorem createSegmentFile_path (dir : Bytes) (id : Int) (h0 : 0 ≤ id) :
    ∃ p, Join [dir, str "segment-" ++ decimal id.toNat] = some p ∧
      createSegmentFilePath dir id = some p ∧
      (∀ (File Err : Type) (osCreate : Bytes → Option File × Option Err),
        createSegmentFile osCreate dir id =
          some (match osCreate p with
            | (_, some err) => (none, some err)
            | (file, none) => (file, none))) ∧
      (∃ o, p = o ++ (str "segment-" ++ decimal id.toNat) ∧ SepEnd o) ∧
      horner (decimal id.toNat) 0 = id.toNat ∧
      10 ^ ((decimal id.toNat).length - 1) ≤ max id.toNat 1 := by
  have hns : ∀ b ∈ segmentName id.toNat, b ≠ Separator :=
    segment_no_sep _ (decimal_no_sep _)
  have hcons := segmentName_cons id.toNat
  rw [hcons] at hns
  obtain ⟨o, ho, hso⟩ := Join_last_element dir 115 _ hns (by decide)
  rw [← hcons] at ho
  have hpath : createSegmentFilePath dir id = some (o ++ segmentName id.toNat) := by
    unfold createSegmentFilePath
    rw [sprintfSegment_nonneg id h0]
    exact ho
  obtain ⟨-, -, hval, hlen, -⟩ := decimal_spec id.toNat
  refine ⟨o ++ segmentName id.toNat, ho, hpath, ?_, ⟨o, rfl, hso⟩, hval, hlen⟩
  intro File Err osCreate
  unfold createSegmentFile
  rw [hpath]
  simp only
  split <;> simp_all

/-- The directory `dir` with the ids 5 and 0. -/
theorem createSegmentFile_path_witness :
    (0 : Int) ≤ 5 ∧
      createSegmentFilePath (str "dir") 5 = some (str "dir/segment-5") ∧
      createSegmentFilePath (str "dir") 0 = some (str "dir/segment-0") ∧
      ∃ p, Join [str "dir", str "segment-" ++ decimal (5 : Int).toNat] = some p ∧
        createSegmentFilePath (str "dir") 5 = some p ∧
        (∀ (File Err : Type) (osCreate : Bytes → Option File × Option Err),
          createSegmentFile osCreate (str "dir") 5 =
            some (match osCreate p with
              | (_, some err) => (none, some err)
              | (file, none) => (file, none))) ∧
        (∃ o, p = o ++ (str "segment-" ++ decimal (5 : Int).toNat) ∧ SepEnd o) ∧
        horner (decimal (5 : Int).toNat) 0 = (5 : Int).toNat ∧
        10 ^ ((decimal (5 : Int).toNat).length - 1) ≤ max (5 : Int).toNat 1 :=
  ⟨by decide, by decide, by decide, createSegmentFile_path (str "dir") 5 (by decide)⟩

/-! ## Replay of written records -/

theorem ChecksumIEEE_lt (data : Bytes) : ChecksumIEEE data < 2 ^ 32 := by
  unfold ChecksumIEEE simpleUpdate
  exact Nat.xor_lt_two_pow (foldl_updateByte_lt data _ (by decide)) (by decide)

theorem sealedEntry_crc (s : Uint64) (payload : Bytes) :
    (sealedEntry s payload).CRC.val = ChecksumIEEE (payload ++ [byteOfUint64 s]) := by
  unfold sealedEntry
  simp only [Fin.ofNat, Fin.val_mk]
  exact Nat.mod_eq_of_lt (ChecksumIEEE_lt _)

/-- A record with the computed checksum verifies. -/
theorem verifyCRC_sealedEntry (s : Uint64) (payload : Bytes) :
    verifyCRC (sealedEntry s payload) = true := by
  have h := sealedEntry_crc s payload
  unfold verifyCRC
  simp only [decide_eq_true_eq]
  exact h

/-- What `unmarshalAndVerifyEntry` returns on the encoding of a record. -/
theorem unmarshalAndVerifyEntry_MustMarshal (sch : Schema) (hs : sch.valid) (lsn : Uint64)
    (payload : Bytes) (crc : Uint32) (hl : payload.length < 2 ^ 63) :
    unmarshalAndVerifyEntry sch (MustMarshal sch ⟨lsn, payload, crc, []⟩) =
      if !verifyCRC ⟨lsn, payload, crc, []⟩ then .ret (none, some crcMismatch)
      else .ret (some ⟨lsn, payload, crc, []⟩, none) := by
  unfold unmarshalAndVerifyEntry MustUnmarshal MustMarshal
  rw [protoUnmarshal_of_Decodes sch _ _ (protoMarshal_decodes sch hs lsn payload crc hl)]

theorem appendBytesNoZero_single (num : Nat) (y : Byte) :
    appendBytesNoZero num [y] =
      (AppendVarint (EncodeTag num BytesType) ++ AppendVarint 1) ++ [y] := by
  simp [appendBytesNoZero]

/-- In the encoding of a record with a one-byte payload, that byte stands at a
place that does not depend on its value. -/
theorem protoMarshal_payload_byte (sch : Schema) (lsn : Uint64) (crc : Uint32) :
    ∃ pre post, ∀ y : Byte, protoMarshal sch ⟨lsn, [y], crc, []⟩ = pre ++ y :: post := by
  have h1 : ∀ (X Y : Bytes), ∃ pre post, ∀ y : Byte,
      appendBytesNoZero sch.data [y] ++ (X ++ Y) = pre ++ y :: post :=
    fun X Y => ⟨AppendVarint (EncodeTag sch.data BytesType) ++ AppendVarint 1, X ++ Y,
      fun y => by rw [appendBytesNoZero_single]; simp⟩
  have h2 : ∀ (X Y : Bytes), ∃ pre post, ∀ y : Byte,
      X ++ (appendBytesNoZero sch.data [y] ++ Y) = pre ++ y :: post :=
    fun X Y => ⟨X ++ (AppendVarint (EncodeTag sch.data BytesType) ++ AppendVarint 1), Y,
      fun y => by rw [appendBytesNoZero_single]; simp⟩
  have h3 : ∀ (X Y : Bytes), ∃ pre post, ∀ y : Byte,
      X ++ (Y ++ appendBytesNoZero sch.data [y]) = pre ++ y :: post :=
    fun X Y => ⟨X ++ (Y ++ (AppendVarint (EncodeTag sch.data BytesType) ++ AppendVarint 1)), [],
      fun y => by rw [appendBytesNoZero_single]; simp⟩
  unfold protoMarshal
  by_cases c1 : sch.data ≤ sch.crc <;> by_cases c2 : sch.lsn ≤ sch.data <;>
    by_cases c3 : sch.lsn ≤ sch.crc <;>
    simp only [List.insertionSort, List.orderedInsert, c1, c2, c3, if_true, if_false, List.map,
      List.flatten, List.append_nil] <;>
    first
      | exact h1 _ _
      | exact h2 _ _
      | exact h3 _ _

/-- C14: of the records with sequence numbers 1, 2, 3, payloads `a`, `b`, `c`
and computed checksums, the encoding of record 1 is returned by
`unmarshalAndVerifyEntry` with no error; replacing the payload byte of record 2
by any other byte `x`, the checksum kept, changes one byte of its encoding, and
on the changed encoding `unmarshalAndVerifyEntry` returns the CRC-mismatch
error and no record. -/
theorem replay_rejects_corrupted_payload (sch : Schema) (hs : sch.valid) :
    unmarshalAndVerifyEntry sch (MustMarshal sch (sealedEntry 1 (str "a"))) =
        .ret (some (sealedEntry 1 (str "a")), none) ∧
      (∃ pre post,
        MustMarshal sch (sealedEntry 2 (str "b")) = pre ++ 98 :: post ∧
        ∀ x : Byte, MustMarshal sch { sealedEntry 2 (str "b") with Data := [x] } =
          pre ++ x :: post) ∧
      (∀ x : Byte, x ≠ 98 →
        verifyCRC { sealedEntry 2 (str "b") with Data := [x] } = false ∧
        unmarshalAndVerifyEntry sch
            (MustMarshal sch { sealedEntry 2 (str "b") with Data := [x] }) =
          .ret (none, some crcMismatch)) ∧
      verifyCRC (sealedEntry 2 (str "b")) = true ∧ verifyCRC (sealedEntry 3 (str "c")) = true := by
  refine ⟨?_, ?_, ?_, verifyCRC_sealedEntry _ _, verifyCRC_sealedEntry _ _⟩
  · have h := unmarshalAndVerifyEntry_MustMarshal sch hs 1 (str "a")
      (sealedEntry 1 (str "a")).CRC (by decide)
    have hv := verifyCRC_sealedEntry 1 (str "a")
    have e : (⟨1, str "a", (sealedEntry 1 (str "a")).CRC, []⟩ : WAL_Entry) =
        sealedEntry 1 (str "a") := rfl
    rw [e, hv] at h
    exact h
  · obtain ⟨pre, post, hp⟩ := protoMarshal_payload_byte sch 2 (sealedEntry 2 (str "b")).CRC
    exact ⟨pre, post, hp 98, fun x => hp x⟩
  · intro x hx
    have hcrc := sealedEntry_crc 2 (str "b")
    have hne : ChecksumIEEE ([x] ++ [byteOfUint64 2]) ≠
        ChecksumIEEE (str "b" ++ [byteOfUint64 2]) :=
      ChecksumIEEE_byte_change [] [byteOfUint64 2] 98 x hx
    have hv : verifyCRC { sealedEntry 2 (str "b") with Data := [x] } = false := by
      unfold verifyCRC
      simp only [decide_eq_false_iff_not]
      intro hc
      apply hne
      rw [← hcrc]
      exact hc.symm
    refine ⟨hv, ?_⟩
    have h := unmarshalAndVerifyEntry_MustMarshal sch hs 2 [x]
      (sealedEntry 2 (str "b")).CRC (by simp)
    have e : (⟨2, [x], (sealedEntry 2 (str "b")).CRC, []⟩ : WAL_Entry) =
        { sealedEntry 2 (str "b") with Data := [x] } := rfl
    rw [e, hv] at h
    exact h

/-- The field numbers 1, 2, 3: record 1 is returned, and record 2 with the
payload byte `x` is rejected. -/
theorem replay_rejects_corrupted_payload_witness :
    (⟨1, 2, 3⟩ : Schema).valid ∧
      unmarshalAndVerifyEntry ⟨1, 2, 3⟩ (MustMarshal ⟨1, 2, 3⟩ (sealedEntry 1 (str "a"))) =
        .ret (some (sealedEntry 1 (str "a")), none) ∧
      unmarshalAndVerifyEntry ⟨1, 2, 3⟩
          (MustMarshal ⟨1, 2, 3⟩ { sealedEntry 2 (str "b") with Data := str "x" }) =
        .ret (none, some crcMismatch) :=
  ⟨by decide, (replay_rejects_corrupted_payload ⟨1, 2, 3⟩ (by decide)).1,
    ((replay_rejects_corrupted_payload ⟨1, 2, 3⟩ (by decide)).2.2.1 120 (by decide)).2⟩

/-! ## The low byte of the sequence number decides the checksum -/

/-- The one checksum value `verifyCRC` accepts for a payload and a sequence
number is the checksum it computes. -/
theorem verifyCRC_accepts_iff (s : Uint64) (payload : Bytes) (c : Uint32) (u : Bytes) :
    verifyCRC ⟨s, payload, c, u⟩ = true ↔ c = (sealedEntry s payload).CRC := by
  have hc := sealedEntry_crc s payload
  unfold verifyCRC
  simp only [decide_eq_true_eq]
  constructor
  · intro h; exact Fin.ext (by rw [hc]; exact h)
  · intro h; rw [h]; exact hc

/-- C11: for two sequence numbers whose low-order 8 bits differ, the checksums
`verifyCRC` computes for the same payload differ: for each of the two it accepts
exactly one checksum value, the two values are different, and so a checksum it
accepts with one sequence number it rejects with the other. -/
theorem crc_detects_low_byte (payload : Bytes) (s₁ s₂ : Uint64)
    (h : s₁.val % 256 ≠ s₂.val % 256) :
    (∃ c₁ c₂ : Uint32, c₁ ≠ c₂ ∧
      (∀ (c : Uint32) (u : Bytes), verifyCRC ⟨s₁, payload, c, u⟩ = true ↔ c = c₁) ∧
      (∀ (c : Uint32) (u : Bytes), verifyCRC ⟨s₂, payload, c, u⟩ = true ↔ c = c₂) ∧
      c₁.val = ChecksumIEEE (payload ++ [byteOfUint64 s₁]) ∧
      c₂.val = ChecksumIEEE (payload ++ [byteOfUint64 s₂])) ∧
    (∀ (c : Uint32) (u : Bytes), verifyCRC ⟨s₁, payload, c, u⟩ = true →
      verifyCRC ⟨s₂, payload, c, u⟩ = false) ∧
    ChecksumIEEE (payload ++ [byteOfUint64 s₁]) ≠
      ChecksumIEEE (payload ++ [byteOfUint64 s₂]) := by
  have hne : ChecksumIEEE (payload ++ [byteOfUint64 s₁]) ≠
      ChecksumIEEE (payload ++ [byteOfUint64 s₂]) :=
    ChecksumIEEE_byte_change payload [] (byteOfUint64 s₂) (byteOfUint64 s₁)
      (fun hb => h ((byteOfUint64_eq_iff s₁ s₂).mp hb))
  have hc : (sealedEntry s₁ payload).CRC ≠ (sealedEntry s₂ payload).CRC := by
    intro he
    apply hne
    rw [← sealedEntry_crc s₁ payload, ← sealedEntry_crc s₂ payload, he]
  refine ⟨⟨_, _, hc, fun c u => verifyCRC_accepts_iff s₁ payload c u,
    fun c u => verifyCRC_accepts_iff s₂ payload c u, sealedEntry_crc _ _, sealedEntry_crc _ _⟩,
    ?_, hne⟩
  intro c u h1
  have e1 := (verifyCRC_accepts_iff s₁ payload c u).mp h1
  cases h2 : verifyCRC ⟨s₂, payload, c, u⟩ with
  | false => rfl
  | true =>
    have e2 := (verifyCRC_accepts_iff s₂ payload c u).mp h2
    exact absurd (e1.symm.trans e2) hc

/-- The sequence numbers 1 and 2 under the payload `b`: the checksum
4162616054 that `verifyCRC` accepts with sequence number 2 it rejects with
sequence number 1. -/
theorem crc_detects_low_byte_witness :
    (2 : Uint64).val % 256 ≠ (1 : Uint64).val % 256 ∧
      verifyCRC ⟨2, str "b", 4162616054, []⟩ = true ∧
      verifyCRC ⟨1, str "b", 4162616054, []⟩ = false :=
  ⟨by decide, by decide!,
    (crc_detects_low_byte (str "b") 2 1 (by decide)).2.1 4162616054 [] (by decide!)⟩

end Wal
